import Mathlib

/-!
# Shallow embedding of the `comprs` compression library

This file embeds the core of the `comprs` Rust compression library
(bit-level I/O, prefix codes, static and dynamic Huffman coding) as
executable Lean definitions, and proves properties of the embedded code.

Machine integers (`u64`, `u32`, `u16`, `usize`) are modelled as `Nat`,
with wrapping applied exactly where Rust's semantics wrap (value bits
shifted out of a `u64` by `<<`), and with well-formedness hypotheses
standing in for the bounds that Rust's types guarantee.  The byte
source behind a `BitReader` and the byte sink behind a `BitWriter` are
modelled as error-free in-memory byte lists, matching the library's
`MemReader` / `MemWriter` collaborators.
-/

namespace Comprs

/-- Size of the `u64` word type. -/
def U64 : Nat := 2 ^ 64

/-! ## Bit-list helpers (specification side)

Bits are `List Bool`, most significant bit first, matching the wire
convention of the library ("within each emitted byte, the first bit
produced is the msb").
-/

/-- The low `n` bits of `v`, most significant first. -/
def natToBits : Nat → Nat → List Bool
  | 0, _ => []
  | n + 1, v => v.testBit n :: natToBits n v

/-- Value of a bit list read most-significant-first. -/
def bitsToNat (bs : List Bool) : Nat :=
  bs.foldl (fun a b => 2 * a + b.toNat) 0

/-- All bits of a byte list, msb-first within each byte. -/
def bytesToBits (bs : List Nat) : List Bool :=
  (bs.map (natToBits 8)).flatten

/-- `l.take n`, zero-padded (with `false`) up to length `n`.  This is how a
bit stream behaves past end-of-stream: missing bits read as zero. -/
def padTake (l : List Bool) (n : Nat) : List Bool :=
  l.take n ++ List.replicate (n - l.length) false

/-! ## `src/bits/bit_ops.rs` -/

/-- `shift_left` from `bit_ops.rs`: branch for the 64-bit shift; otherwise the
wrapping `u64` left shift (value bits shifted above bit 63 are discarded). -/
def shift_left (data : Nat) (bits : Nat) : Nat :=
  if bits = 64 then 0 else (data <<< bits) % U64

/-- `shift_right` from `bit_ops.rs`. -/
def shift_right (data : Nat) (bits : Nat) : Nat :=
  if bits = 64 then 0 else data >>> bits

/-! ## `src/bits/bit_writer.rs` -/

/-- Number of bytes to buffer before flushing (`BUF_SIZE`). -/
def BUF_SIZE : Nat := 8 * 1024

/-- Big-endian bytes of a `u64` (`u64::to_be_bytes`). -/
def to_be_bytes (d : Nat) : List Nat :=
  [(d >>> 56) % 256, (d >>> 48) % 256, (d >>> 40) % 256, (d >>> 32) % 256,
   (d >>> 24) % 256, (d >>> 16) % 256, (d >>> 8) % 256, d % 256]

/-- State of `BitWriter`.  The underlying `io::Write` collaborator is the
in-memory byte list `out` (error-free, so `write_errors` is always 0 and is
omitted). -/
structure BitWriter where
  /-- The current data buffer; written data is msb aligned. -/
  data : Nat
  /-- Number of bits that can still be written to `data`. -/
  bits_avail : Nat
  /-- Buffer of bytes to be written out to the writer. -/
  buf : List Nat
  /-- Bytes received so far by the external writer. -/
  out : List Nat
  /-- Total number of bytes written (counted at flush). -/
  bytes_written : Nat
deriving Repr

namespace BitWriter

/-- `BitWriter::new`. -/
def new : BitWriter :=
  { data := 0, bits_avail := 64, buf := [], out := [], bytes_written := 0 }

/-- `BitWriter::flush`: hand the byte buffer to the external writer. -/
def flush (w : BitWriter) : BitWriter :=
  { w with out := w.out ++ w.buf,
           bytes_written := w.bytes_written + w.buf.length,
           buf := [] }

/-- `BitWriter::write_u64`: append 8 big-endian bytes to the buffer, flushing
the buffer when it reaches `BUF_SIZE`. -/
def write_u64 (w : BitWriter) (data : Nat) : BitWriter :=
  let w1 : BitWriter := { w with buf := w.buf ++ to_be_bytes data }
  if BUF_SIZE ≤ w1.buf.length then w1.flush else w1

/-- `BitWriter::write_bits`: write `bits` bits of `data` (lsb aligned). -/
def write_bits (w : BitWriter) (data : Nat) (bits : Nat) : BitWriter :=
  if bits ≤ w.bits_avail then
    -- Fast path: enough space in `self.data`.
    { w with data := w.data ||| shift_left data (w.bits_avail - bits),
             bits_avail := w.bits_avail - bits }
  else
    -- Write the bits that fit and output the 64 bits in `self.data`.
    let remaining_bits := bits - w.bits_avail
    let data_to_write := w.data ||| shift_right data remaining_bits
    let w1 := w.write_u64 data_to_write
    -- Move the remaining bits to `self.data`.
    let new_bits_avail := 64 - remaining_bits
    { w1 with data := shift_left data new_bits_avail,
              bits_avail := new_bits_avail }

/-- `BitWriter::finish`: flush the partial word and the byte buffer; returns
the final state together with the total number of bytes written. -/
def finish (w : BitWriter) : BitWriter × Nat :=
  let num_bytes := (64 + 7 - w.bits_avail) / 8
  let w1 : BitWriter :=
    if 0 < num_bytes then
      { w with buf := w.buf ++ (to_be_bytes w.data).take num_bytes }
    else w
  let w2 := w1.flush
  (w2, w2.bytes_written)

end BitWriter

/-! ## `src/bits/bit_reader.rs` -/

/-- `u64::from_be_bytes` on an (at most) 8-byte list. -/
def beBytesToNat (bs : List Nat) : Nat :=
  bs.foldl (fun a b => a * 256 + b) 0

/-- State of `BitReader`.  The fixed 8 KiB internal buffer is modelled by the
list of its valid bytes `buf` (indices `0..buf_end` of the Rust array, so
`buf_end = buf.length`); bytes of the array beyond `buf_end` are never read
by the code.  The underlying `io::Read` collaborator is the in-memory byte
list `src` (error-free, so `num_read_errors` is always 0 and is omitted). -/
structure BitReader where
  /-- The current data buffer; the next bits, aligned to msb. -/
  data : Nat
  /-- Number of bits available in `data`. -/
  bits_avail : Nat
  /-- Valid region of the internal buffer. -/
  buf : List Nat
  /-- Position in the buffer. -/
  buf_pos : Nat
  /-- Bytes not yet handed over by the underlying reader. -/
  src : List Nat
  /-- Number of bytes read from the underlying reader. -/
  bytes_read : Nat
deriving Repr

namespace BitReader

/-- `BitReader::new`, reading from the byte list `src`. -/
def new (src : List Nat) : BitReader :=
  { data := 0, bits_avail := 0, buf := [], buf_pos := 0, src := src,
    bytes_read := 0 }

/-- `BitReader::fill_buf`: refill the internal buffer from the underlying
reader.  The model reader hands over `min BUF_SIZE src.length` bytes, exactly
as the library's `MemReader` does. -/
def fill_buf (r : BitReader) : BitReader :=
  let chunk := r.src.take BUF_SIZE
  { r with buf := chunk, buf_pos := 0, src := r.src.drop BUF_SIZE,
           bytes_read := r.bytes_read + chunk.length }

/-- `BitReader::next_u64`: read the next 64-bit value (zero padded past end
of stream). -/
def next_u64 (r : BitReader) : Nat × BitReader :=
  let pos := r.buf_pos
  let r0 : BitReader := { r with buf_pos := pos + 8 }
  if pos + 8 ≤ r.buf.length then
    -- Fast path: enough data in the buffer.
    (beBytesToNat ((r.buf.drop pos).take 8), r0)
  else
    -- Slow path: copy what the buffer still has, refill it, then copy the
    -- rest; missing bytes stay zero.
    let head := r.buf.drop pos
    let r1 := r0.fill_buf
    let extra := min (8 - head.length) r1.buf.length
    let tail := r1.buf.take extra
    let r2 : BitReader := { r1 with buf_pos := extra }
    (beBytesToNat (head ++ tail ++ List.replicate (8 - head.length - extra) 0), r2)

/-- One iteration step of the byte-copy loop of `BitReader::next_bytes`
(slow path), taking up to `k` further bytes. -/
def next_bytes_go (r : BitReader) : Nat → List Nat × BitReader
  | 0 => ([], r)
  | k + 1 =>
    if r.buf_pos = r.buf.length then
      let r1 := r.fill_buf
      -- End of stream: leave the missing bytes zero-padded.
      if r1.buf.length = 0 then ([], r1)
      else
        let b := r1.buf.getD r1.buf_pos 0
        let p := next_bytes_go { r1 with buf_pos := r1.buf_pos + 1 } k
        (b :: p.1, p.2)
    else
      let b := r.buf.getD r.buf_pos 0
      let p := next_bytes_go { r with buf_pos := r.buf_pos + 1 } k
      (b :: p.1, p.2)

/-- `BitReader::next_bytes`: consume the next `num_bytes` bytes, returning a
big-endian value that may contain more than `num_bytes` bytes of data. -/
def next_bytes (r : BitReader) (num_bytes : Nat) : Nat × BitReader :=
  if 8 ≤ r.buf.length - r.buf_pos then
    -- Fast path: at least 8 bytes buffered; the returned value holds the
    -- next 8 bytes even though only `num_bytes` of them are consumed.
    (beBytesToNat ((r.buf.drop r.buf_pos).take 8),
     { r with buf_pos := r.buf_pos + num_bytes })
  else
    let p := next_bytes_go r num_bytes
    (beBytesToNat (p.1 ++ List.replicate (8 - p.1.length) 0), p.2)

/-- `BitReader::fill_data`: append whole bytes to the `data` word so that
more bits are available via `peek`. -/
def fill_data (r : BitReader) : BitReader :=
  let num_bytes := (64 - r.bits_avail) / 8
  let p := r.next_bytes num_bytes
  { p.2 with data := p.2.data ||| shift_right p.1 p.2.bits_avail,
             bits_avail := p.2.bits_avail + num_bytes * 8 }

/-- `BitReader::peek`. -/
def peek (r : BitReader) : Nat := r.data

/-- `BitReader::consume`: consume `bits` bits (assumes `bits ≤ bits_avail`). -/
def consume (r : BitReader) (bits : Nat) : BitReader :=
  { r with data := shift_left r.data bits, bits_avail := r.bits_avail - bits }

/-- `BitReader::read_bits`: read the next `bits` bits, lsb-aligned. -/
def read_bits (r : BitReader) (bits : Nat) : Nat × BitReader :=
  let result := shift_right r.data (64 - bits)
  if bits ≤ r.bits_avail then
    (result, { r with data := shift_left r.data bits,
                      bits_avail := r.bits_avail - bits })
  else
    -- Not enough bits: read the next 64 bits.
    let p := r.next_u64
    let extra_bits := bits - r.bits_avail
    let new_avail := 64 - extra_bits
    (result ||| shift_right p.1 new_avail,
     { p.2 with data := shift_left p.1 extra_bits, bits_avail := new_avail })

/-- `BitReader::finish`: discard buffered-but-unused bytes and return the
number of bytes actually consumed. -/
def finish (r : BitReader) : Nat × BitReader :=
  let n := r.bytes_read - (r.buf.length - r.buf_pos)
  (n, { r with bytes_read := n, buf := [], buf_pos := 0 })

end BitReader

/-! ## Abstraction functions and invariants for the bit streams -/

/-- Bits committed to a `BitWriter` so far: flushed bytes, buffered bytes,
then the `64 - bits_avail` already-written (msb-aligned) bits of `data`. -/
def wbits (w : BitWriter) : List Bool :=
  bytesToBits (w.out ++ w.buf) ++ (natToBits 64 w.data).take (64 - w.bits_avail)

/-- Well-formedness of a `BitWriter` state, as guaranteed by the Rust types
together with the claimed data-word invariant: the low `bits_avail` bits of
`data` are zero. -/
structure WriterInv (w : BitWriter) : Prop where
  data_lt : w.data < U64
  avail_le : w.bits_avail ≤ 64
  low_zero : w.data % 2 ^ w.bits_avail = 0
  bytes_lt : ∀ b ∈ w.out ++ w.buf, b < 256
  written_eq : w.bytes_written = w.out.length

/-- Bytes consumed by a `BitReader` from the underlying source: everything
pulled from the source minus what still sits unused in the buffer.  This is
the value `BitReader::finish` reports. -/
def BitReader.consumedBytes (r : BitReader) : Nat :=
  r.bytes_read - (r.buf.length - r.buf_pos)

/-- Well-formedness of a `BitReader` state that has been driven only by
`read_bits` over the byte source `src0`, having delivered `D` bits so far. -/
structure ReaderOk (src0 : List Nat) (D : Nat) (r : BitReader) : Prop where
  src_bytes : ∀ b ∈ src0, b < 256
  data_lt : r.data < U64
  avail_le : r.bits_avail ≤ 64
  low_zero : r.data % 2 ^ (64 - r.bits_avail) = 0
  pos_le : r.buf_pos ≤ r.buf.length
  src_suffix : r.src = src0.drop r.bytes_read
  unread_eq : r.buf.drop r.buf_pos ++ r.src = src0.drop r.consumedBytes
  read_le : r.bytes_read ≤ src0.length
  ledger : ∃ p, D + r.bits_avail = 64 * p ∧
    r.consumedBytes = min src0.length (8 * p)
  content : ∃ z, (natToBits 64 r.data).take r.bits_avail ++
      bytesToBits (src0.drop r.consumedBytes) =
    (bytesToBits src0).drop D ++ List.replicate z false

/-! ## Write/read loops over the bit streams -/

/-- Write each `(value, width)` pair in order with `BitWriter::write_bits`. -/
def writeAll (w : BitWriter) : List (Nat × Nat) → BitWriter
  | [] => w
  | p :: ps => writeAll (w.write_bits p.1 p.2) ps

/-- Read back a list of widths in order with `BitReader::read_bits`. -/
def readAll (r : BitReader) : List Nat → List Nat × BitReader
  | [] => ([], r)
  | b :: bs =>
    let p := r.read_bits b
    let q := readAll p.2 bs
    (p.1 :: q.1, q.2)

/-- Concatenated big-endian bit representations of a list of
`(value, width)` pairs. -/
def pairsToBits (ps : List (Nat × Nat)) : List Bool :=
  (ps.map fun p => natToBits p.2 p.1).flatten

/-- Values obtained by reading the given widths starting at bit position `D`
of a bit stream (missing bits past end-of-stream read as zero). -/
def streamVals (stream : List Bool) : Nat → List Nat → List Nat
  | _, [] => []
  | D, b :: bs =>
    bitsToNat (padTake (stream.drop D) b) :: streamVals stream (D + b) bs

/-! ## `src/huffman/prefix_code.rs`: the coding-table header -/

/-- `PrefixCode`: symbols bucketed by code length (`lengths[i]` holds the
symbols whose code length is `i`). -/
structure PrefixCode where
  num_symbols : Nat
  lengths : List (List Nat)
deriving Repr, DecidableEq

/-- The symbol-reading loop of `PrefixCode::decode_coding_table`: read
`n` 16-bit symbols. -/
def readSymbols (r : BitReader) : Nat → List Nat × BitReader
  | 0 => ([], r)
  | n + 1 =>
    let p := r.read_bits 16
    let q := readSymbols p.2 n
    (p.1 :: q.1, q.2)

/-- The `loop` of `PrefixCode::decode_coding_table`.  The loop is bounded:
each successful iteration reads a record with `lengths.len() ≤ len ≤ 32` and
grows `lengths` to `len + 1` entries, so from the initial one-entry table it
runs at most 33 iterations; `fuel = 33` is enough and the exhaustion branch
is unreachable (it conservatively reports an error). -/
def decTableLoop : Nat → BitReader → List (List Nat) →
    Except Unit (List (List Nat) × BitReader)
  | 0, _, _ => .error ()
  | fuel + 1, r, lengths =>
    let p := r.read_bits 32
    if p.1 = 0 then .ok (lengths, p.2)
    else if p.1 < lengths.length ∨ 32 < p.1 then .error ()
    else
      let lengths1 := lengths ++ List.replicate (p.1 - lengths.length) []
      let q := p.2.read_bits 16
      let s := readSymbols q.2 q.1
      decTableLoop fuel s.2 (lengths1 ++ [s.1])

/-- `PrefixCode::decode_coding_table`.  The byte source is in-memory and
error-free, so the final `num_read_errors` check never fires. -/
def decode_coding_table (r : BitReader) :
    Except Unit (PrefixCode × BitReader) :=
  let p := r.read_bits 16
  match decTableLoop 33 p.2 [[]] with
  | .error e => .error e
  | .ok (lengths, r1) => .ok (⟨p.1, lengths⟩, r1)

instance : Nonempty BitReader := ⟨BitReader.new []⟩

instance : Nonempty BitWriter := ⟨BitWriter.new⟩

/-- Pure value of `bits` bits at bit position `D` of a bit stream (missing
bits past end-of-stream read as zero). -/
def readPure (stream : List Bool) (D bits : Nat) : Nat :=
  bitsToNat (padTake (stream.drop D) bits)

/-- Specification-side well-formedness of a serialized coding-table header,
transcribing the spec's words: starting at bit position `D` with smallest
admissible length `cur`, the 32-bit length records must be strictly
ascending and at most 32 (`PREFIX_CODE_MAX_BITS`) up to the 0 terminator;
each record is followed by a 16-bit count `num` and `num` 16-bit symbols,
which are not constrained. -/
def headerOk (stream : List Bool) : Nat → Nat → Nat → Bool
  | _, _, 0 => false
  | D, cur, fuel + 1 =>
    let len := readPure stream D 32
    if len = 0 then true
    else if cur ≤ len ∧ len ≤ 32 then
      headerOk stream (D + 32 + 16 + 16 * readPure stream (D + 32) 16)
        (len + 1) fuel
    else false

/-! ## `src/huffman/static_huffman.rs` -/

/-- `HeapNode`: `weight` is (raw weight * 2) + (1 for internal nodes). -/
structure HeapNode where
  weight : Nat
  symbol : Nat
deriving Repr, DecidableEq

instance : Inhabited HeapNode := ⟨⟨0, 0⟩⟩

/-- `u32` mask `!1`. -/
def MASK32 : Nat := 2 ^ 32 - 2

/-- The loop of `heapify_up`, recursing towards the root.  The parent index
`(pos - 1) / 2` is smaller than `pos`, so `fuel = pos` at the entry point is
always enough and the exhaustion branch is unreachable. -/
def heapify_up_go (orig : HeapNode) : Nat → List HeapNode → Nat →
    List HeapNode
  | 0, heap, pos => heap.set pos orig
  | fuel + 1, heap, pos =>
    if pos = 0 then heap.set pos orig
    else
      let parent := (pos - 1) / 2
      if (heap.getD parent default).weight ≤ orig.weight then
        heap.set pos orig
      else
        heapify_up_go orig fuel (heap.set pos (heap.getD parent default))
          parent

/-- `heapify_up` from `static_huffman.rs`. -/
def heapify_up (heap : List HeapNode) (pos : Nat) : List HeapNode :=
  heapify_up_go (heap.getD pos default) pos heap pos

/-- The loop of `heapify_down`, recursing towards the leaves.  The position
at least doubles each iteration while staying below `size`, so `fuel = size`
at the entry point is always enough. -/
def heapify_down_go (size : Nat) (insert_node : HeapNode) :
    Nat → List HeapNode → Nat → List HeapNode
  | 0, heap, pos => heap.set pos insert_node
  | fuel + 1, heap, pos =>
    let left := pos * 2 + 1
    let right := left + 1
    if right < size then
      let smaller := if (heap.getD left default).weight ≤
          (heap.getD right default).weight then left else right
      if insert_node.weight ≤ (heap.getD smaller default).weight then
        heap.set pos insert_node
      else
        heapify_down_go size insert_node fuel
          (heap.set pos (heap.getD smaller default)) smaller
    else if left < size then
      if insert_node.weight ≤ (heap.getD left default).weight then
        heap.set pos insert_node
      else
        heapify_down_go size insert_node fuel
          (heap.set pos (heap.getD left default)) left
    else heap.set pos insert_node

/-- `heapify_down` from `static_huffman.rs`. -/
def heapify_down (heap : List HeapNode) (size : Nat)
    (insert_node : HeapNode) : List HeapNode :=
  heapify_down_go size insert_node size heap 0

/-- The `while size >= 2` merge loop of `build_from_weights`.  `parents`
models the `parent` fields of the `ParentNode` array (levels are computed
afterwards).  Parent weights are `u32` sums (wrapping modelled with
`% 2 ^ 32`). -/
def buildLoop : Nat → List HeapNode → List Nat → Nat →
    List HeapNode × List Nat
  | 0, table, parents, _ => (table, parents)
  | 1, table, parents, _ => (table, parents)
  | size + 2, table, parents, parent_index =>
    let size1 := size + 1
    let left := table.getD 0 default
    let last_node := table.getD size1 default
    let table1 := heapify_down table size1 last_node
    let right := table1.getD 0 default
    let parent_weight := (Nat.land left.weight MASK32 +
      Nat.land right.weight MASK32 + 1) % 2 ^ 32
    let parents1 := (parents.set left.symbol parent_index).set
      right.symbol parent_index
    let table2 := heapify_down table1 size1 ⟨parent_weight, parent_index⟩
    buildLoop size1 table2 parents1 (parent_index + 1)

/-- The level-computation loop of `build_from_weights`: for
`i in (ss..2*ss-2).rev()`, `level[i] = level[parents[i]] + 1`. -/
def computeLevels (parents : List Nat) (ss : Nat) : List Nat :=
  ((List.range' ss (ss - 2)).reverse).foldl
    (fun levels i =>
      levels.set i (levels.getD (parents.getD i 0) 0 + 1))
    (List.replicate (2 * ss) 0)

/-- The output loop of `build_from_weights`: bucket `symbols[i]` at code
length `level[parents[i]] + 1`, extending the bucket list as needed. -/
def outputLengths (parents levels symbols : List Nat) (ss : Nat) :
    List (List Nat) :=
  (List.range ss).foldl
    (fun lengths i =>
      let parent := parents.getD i 0
      let level := levels.getD parent 0 + 1
      let lengths1 := lengths ++
        List.replicate (level + 1 - lengths.length) []
      lengths1.set level (lengths1.getD level [] ++ [symbols.getD i 0]))
    []

/-- `StaticHuffman::build_from_weights` (the `num_symbols` assertion is
the caller's `weights.len()`).  Returns `none` where the code asserts
`symbol_size > 0`. -/
def build_from_weights (weights : List Nat) : Option (List (List Nat)) :=
  let symbols := (List.range weights.length).filter
    (fun i => decide (0 < weights.getD i 0))
  let table0 := (List.range symbols.length).map
    (fun j => (⟨2 * weights.getD (symbols.getD j 0) 0 % 2 ^ 32, j⟩ :
      HeapNode))
  let ss := table0.length
  if ss = 0 then none
  else
    let table1 := (List.range' 1 (ss - 1)).foldl
      (fun t i => heapify_up t i) table0
    let parents0 := List.replicate (ss * 2) 0
    let p := buildLoop ss table1 parents0 ss
    let levels := computeLevels p.2 ss
    some (outputLengths p.2 levels symbols ss)

/-- `InputSource::frequencies`: byte histogram over 256 symbols. -/
def frequencies (input : List Nat) : List Nat :=
  input.foldl (fun f b => f.set b (f.getD b 0 + 1)) (List.replicate 256 0)

/-- `PrefixCode::weight_delta`: weight change when moving `num` symbols
from `higher` to `lower` level (`usize` shifts, wrapping modelled with
`% 2 ^ 64`). -/
def weight_delta (lengths : List (List Nat)) (num higher lower : Nat) :
    Nat :=
  let longest := lengths.length - 1
  (num <<< (longest - higher)) % 2 ^ 64 -
    (num <<< (longest - lower)) % 2 ^ 64

/-- The `while` pop loop of `PrefixCode::adjust`; `fuel` is the size of the
level being drained.  The `usize` subtraction `*delta -= adjustment` is
checked: `none` models the debug-build underflow panic. -/
def adjustPop (adjustment total_adjust : Nat) :
    Nat → List Nat → List Nat → Nat → Option (List Nat × List Nat × Nat)
  | 0, cur, nxt, delta => some (cur, nxt, delta)
  | fuel + 1, cur, nxt, delta =>
    if total_adjust < delta ∧ cur ≠ [] then
      match cur.getLast? with
      | none => some (cur, nxt, delta)
      | some symbol =>
        if delta < adjustment then none
        else
          adjustPop adjustment total_adjust fuel cur.dropLast
            (nxt ++ [symbol]) (delta - adjustment)
    else some (cur, nxt, delta)

/-- `PrefixCode::adjust`.  `none` models the
`assert!(level > 0, "Not possible to apply specified length limit")`
failure and the checked subtractions of the pop loop. -/
def adjust (max_length : Nat) (lengths : List (List Nat)) (level : Nat)
    (total_adjust delta : Nat) : Option (List (List Nat) × Nat) :=
  let num_symbols := (lengths.getD level []).length
  let max_adjust := weight_delta lengths num_symbols level max_length
  let new_total_adjust := total_adjust + max_adjust
  let step1 : Option (List (List Nat) × Nat) :=
    if new_total_adjust < delta then
      if h : level = 0 then none
      else adjust max_length lengths (level - 1) new_total_adjust delta
    else some (lengths, delta)
  match step1 with
  | none => none
  | some (lengths1, delta1) =>
    if 0 < delta1 then
      let adjustment := weight_delta lengths1 1 level (level + 1)
      match adjustPop adjustment total_adjust
          (lengths1.getD level []).length (lengths1.getD level [])
          (lengths1.getD (level + 1) []) delta1 with
      | none => none
      | some q =>
        some ((lengths1.set level q.1).set (level + 1) q.2.1, q.2.2)
    else some (lengths1, delta1)
termination_by level
decreasing_by omega

/-- `PrefixCode::apply_max_length_limit`.  `usize` subtractions on
`max_length` and `lengths.len()` are checked: `none` models the
debug-build underflow panic (in release builds the wrapped value panics as
an out-of-bounds index inside `adjust`), as well as the final
`assert!(delta_to_adjust == 0)`. -/
def apply_max_length_limit (lengths : List (List Nat)) (max_length : Nat) :
    Option (List (List Nat)) :=
  if lengths.length = 0 then none
  else if lengths.length - 1 ≤ max_length then some lengths
  else
    let levels := List.range' (max_length + 1)
      (lengths.length - (max_length + 1))
    let p := levels.foldl
      (fun (st : List (List Nat) × Nat) level =>
        let d := st.2 + weight_delta st.1 ((st.1.getD level []).length)
          max_length level
        let syms := st.1.getD level []
        ((st.1.set level []).set max_length
          (st.1.getD max_length [] ++ syms), d))
      (lengths, 0)
    if max_length = 0 then none
    else
      match adjust max_length p.1 (max_length - 1) 0 p.2 with
      | none => none
      | some q =>
        if q.2 = 0 then some (q.1.take (max_length + 1)) else none

/-! ## `src/huffman/prefix_code.rs`: encoder table and multi-level decoder -/

/-- `DECODE_TABLE_BITS`. -/
def DECODE_TABLE_BITS : Nat := 6

/-- `MAX_SECONDARY_TABLE_BITS`. -/
def MAX_SECONDARY_TABLE_BITS : Nat := 4

/-- `SLOW_DECODE_SYMBOL` (`u16::MAX`). -/
def SLOW_DECODE_SYMBOL : Nat := 65535

/-- `SlowDecode`. -/
structure SlowDecode where
  length : Nat
  base : Nat
  symbols : List Nat
deriving Repr, DecidableEq

/-- `PrefixDecoder`. -/
structure PrefixDecoder where
  num_symbols : Nat
  secondary_table_bits : Nat
  code_table : List Nat
  code_lengths : List Nat
  slow_decode_table : List SlowDecode
deriving Repr, DecidableEq

/-- `PrefixCode::generate_encoder_table`: `(code, length)` per symbol; the
running `code` counter is a `u32` (wrapping modelled with `% 2 ^ 32`). -/
def generate_encoder_table (p : PrefixCode) : List (Nat × Nat) :=
  ((List.range' 1 (p.lengths.length - 1)).foldl
    (fun (st : List (Nat × Nat) × Nat) i =>
      let syms := p.lengths.getD i []
      let st1 := if syms ≠ [] then
          syms.foldl (fun (t : List (Nat × Nat) × Nat) symbol =>
            (t.1.set symbol (t.2, i), (t.2 + 1) % 2 ^ 32)) st
        else st
      (st1.1, (st1.2 <<< 1) % 2 ^ 32))
    (List.replicate p.num_symbols (0, 0), 0)).1

/-- `PrefixCode::code_lengths`. -/
def code_lengths (p : PrefixCode) : List Nat :=
  (List.range p.lengths.length).foldl
    (fun cl i => (p.lengths.getD i []).foldl
      (fun cl2 symbol => cl2.set symbol i) cl)
    (List.replicate p.num_symbols 0)

/-- `PrefixCode::generate_decoder`.  The link entries written into the
primary table are `u16` sums `num_symbols + code_table.len()` (wrapping
modelled with `% 2 ^ 16`; a debug build panics on the overflow instead).
`Vec::resize` to the primary size is the append-or-truncate
`(· ++ replicate …).take`. -/
def generate_decoder (p : PrefixCode) : PrefixDecoder :=
  let code_table := (List.range' 1
      (min (DECODE_TABLE_BITS + 1) p.lengths.length - 1)).foldl
    (fun t i =>
      let syms := p.lengths.getD i []
      if syms ≠ [] then
        let multiples := 2 ^ (DECODE_TABLE_BITS - i)
        syms.foldl (fun t2 symbol => t2 ++ List.replicate multiples symbol) t
      else t)
    []
  if DECODE_TABLE_BITS < p.lengths.length then
    let pos := code_table.length
    let code_table1 := (code_table ++
      List.replicate (2 ^ DECODE_TABLE_BITS - code_table.length) 0).take
        (2 ^ DECODE_TABLE_BITS)
    let secondary_table_bits :=
      min (p.lengths.length - 1 - DECODE_TABLE_BITS) MAX_SECONDARY_TABLE_BITS
    let sec_table_mask := 2 ^ secondary_table_bits - 1
    let st := (List.range' (DECODE_TABLE_BITS + 1) secondary_table_bits).foldl
      (fun (st : List Nat × Nat × Nat) len =>
        let syms := p.lengths.getD len []
        if syms ≠ [] then
          let multiples :=
            2 ^ (DECODE_TABLE_BITS + secondary_table_bits - len)
          syms.foldl (fun (st2 : List Nat × Nat × Nat) symbol =>
            let t := st2.1
            let pos2 := st2.2.1
            let sec_pos := st2.2.2
            if Nat.land sec_pos sec_table_mask = 0 then
              let t1 := t.set pos2 ((p.num_symbols + t.length % 2 ^ 16) %
                2 ^ 16)
              (t1 ++ List.replicate multiples symbol, pos2 + 1,
                0 + multiples)
            else
              (t ++ List.replicate multiples symbol, pos2,
                sec_pos + multiples)) st
        else st)
      (code_table1, pos, 0)
    let t := st.1
    let pos1 := st.2.1
    let sec_pos1 := st.2.2
    let final :=
      if DECODE_TABLE_BITS + secondary_table_bits + 1 < p.lengths.length then
        let t1 := if 0 < sec_pos1 then
            t ++ List.replicate (2 ^ secondary_table_bits - sec_pos1)
              SLOW_DECODE_SYMBOL
          else t
        if pos1 < 2 ^ DECODE_TABLE_BITS then
          let base := t1.length
          let t3 := (List.range' pos1 (2 ^ DECODE_TABLE_BITS - pos1)).foldl
            (fun tt q => tt.set q ((p.num_symbols + base % 2 ^ 16) % 2 ^ 16))
            t1
          t3 ++ List.replicate (2 ^ secondary_table_bits) SLOW_DECODE_SYMBOL
        else t1
      else t
    let slow := ((List.range' 1 (p.lengths.length - 1)).foldl
      (fun (sc : List SlowDecode × Nat) i =>
        let len := (p.lengths.getD i []).length
        let sc1 := if 0 < len ∧
            DECODE_TABLE_BITS + secondary_table_bits < i then
            (sc.1 ++ [⟨i, sc.2, p.lengths.getD i []⟩], sc.2)
          else sc
        (sc1.1, ((sc1.2 + len) <<< 1) % 2 ^ 64))
      ([], 0)).1
    ⟨p.num_symbols, secondary_table_bits, final, code_lengths p, slow⟩
  else ⟨p.num_symbols, 0, code_table, code_lengths p, []⟩

/-- The slow-path loop of `PrefixDecoder::decode`.  `shifted_data -
decode.base` is a `u64` subtraction (wrapping modelled with `% 2 ^ 64`);
`none` models the final `panic!("This shouldn't happen")`. -/
def slowFind : List SlowDecode → Nat → BitReader →
    Option (Nat × BitReader)
  | [], _, _ => none
  | dec :: rest, peek_data, r =>
    let shifted := peek_data >>> (64 - dec.length)
    let delta := (shifted + 2 ^ 64 - dec.base) % 2 ^ 64
    if delta < dec.symbols.length then
      some (dec.symbols.getD delta 0, r.consume dec.length)
    else slowFind rest peek_data r

/-- `PrefixDecoder::decode`.  Out-of-range `code_table` indexing is the
`none` case (a Rust panic).  The secondary shift amount is taken `% 64`, as
Rust release builds mask shift amounts (a debug build panics when
`secondary_table_bits = 0` makes the amount 64). -/
def PrefixDecoder.decode (d : PrefixDecoder) (r0 : BitReader) :
    Option (Nat × BitReader) :=
  let r := if r0.bits_avail < 32 then r0.fill_data else r0
  let peek_data := r.peek
  match d.code_table[peek_data >>> (64 - DECODE_TABLE_BITS)]? with
  | none => none
  | some symbol =>
    if symbol < d.num_symbols then
      some (symbol, r.consume (d.code_lengths.getD symbol 0))
    else
      let secondary_index := ((peek_data <<< DECODE_TABLE_BITS) % 2 ^ 64) >>>
        ((64 - d.secondary_table_bits) % 64)
      match d.code_table[symbol - d.num_symbols + secondary_index]? with
      | none => none
      | some symbol2 =>
        if symbol2 < d.num_symbols then
          some (symbol2, r.consume (d.code_lengths.getD symbol2 0))
        else slowFind d.slow_decode_table peek_data r

/-! ## `src/huffman/dynamic_huffman.rs` -/

/-- `u32::MAX`. -/
def U32MAX : Nat := 2 ^ 32 - 1

/-- `RESET_WEIGHT`. -/
def RESET_WEIGHT : Nat := U32MAX - 2

/-- `NYT_SYMBOL`. -/
def NYT_SYMBOL : Nat := 0

/-- `Node` of the dynamic Huffman tree. -/
structure Node where
  weight : Nat
  parent : Nat
  child : Nat
deriving Repr, DecidableEq

instance : Inhabited Node := ⟨⟨0, 0, 0⟩⟩

/-- `DynamicHuffman` state. -/
structure DynamicHuffman where
  nodes : List Node
  num_symbols : Nat
  symbol_bits : Nat
deriving Repr, DecidableEq

/-- `DynamicHuffman::initialize_nodes`: the symbol nodes (weight
`u32::MAX`), then the initial NYT node. -/
def initialize_nodes (num_symbols : Nat) : List Node :=
  List.replicate (num_symbols + 1) ⟨U32MAX, 0, 0⟩ ++ [⟨0, 0, NYT_SYMBOL⟩]

/-- The `while (1 << symbol_bits) < num_symbols` loop of
`DynamicHuffman::new`; 17 iterations cover every `u16` count. -/
def symbolBitsGo (num_symbols : Nat) : Nat → Nat → Nat
  | 0, bits => bits
  | fuel + 1, bits =>
    if 2 ^ bits < num_symbols then symbolBitsGo num_symbols fuel (bits + 1)
    else bits

/-- `DynamicHuffman::new` (`none` models `assert!(num_symbols > 0)`). -/
def DynamicHuffman.new (num_symbols : Nat) : Option DynamicHuffman :=
  if num_symbols = 0 then none
  else some ⟨initialize_nodes num_symbols, num_symbols,
    symbolBitsGo num_symbols 17 0⟩

/-- `DynamicHuffman::reset_if_necessary`. -/
def reset_if_necessary (d : DynamicHuffman) : DynamicHuffman :=
  if RESET_WEIGHT < (d.nodes.getD (d.num_symbols + 1) default).weight then
    { d with nodes := initialize_nodes d.num_symbols }
  else d

/-- The inner `update` of `DynamicHuffman::swap_subtrees`. -/
def swapUpdate (nodes : List Node) (num_symbols node_id : Nat)
    (fr : Node) : List Node :=
  let nodes1 := nodes.set node_id
    { (nodes.getD node_id default) with
      weight := fr.weight
      child := fr.child }
  let nodes2 := nodes1.set fr.child
    { (nodes1.getD fr.child default) with parent := node_id }
  if num_symbols < fr.child then
    nodes2.set (fr.child + 1)
      { (nodes2.getD (fr.child + 1) default) with parent := node_id }
  else nodes2

/-- `DynamicHuffman::swap_subtrees`. -/
def swap_subtrees (nodes : List Node) (num_symbols n1 n2 : Nat) :
    List Node :=
  let c1 := nodes.getD n1 default
  let c2 := nodes.getD n2 default
  swapUpdate (swapUpdate nodes num_symbols n1 c2) num_symbols n2 c1

/-- The first scan loop of `slide_and_increment`
(`while prev_weight == weight`, decrementing `prev_id`); the scan starts at
`prev_id` and the fuel equals it, so running out coincides with the
`usize` underflow of `prev_id -= 1` (`none`, a panic). -/
def scanWhileEq (nodes : List Node) (weight : Nat) :
    Nat → Nat → Option Nat
  | 0, prev_id =>
    if (nodes.getD prev_id default).weight = weight then none
    else some prev_id
  | fuel + 1, prev_id =>
    if (nodes.getD prev_id default).weight = weight then
      scanWhileEq nodes weight fuel (prev_id - 1)
    else some prev_id

/-- The second scan loop of `slide_and_increment`
(`while prev_weight < target_weight`). -/
def scanWhileLt (nodes : List Node) (target : Nat) :
    Nat → Nat → Option Nat
  | 0, prev_id =>
    if (nodes.getD prev_id default).weight < target then none
    else some prev_id
  | fuel + 1, prev_id =>
    if (nodes.getD prev_id default).weight < target then
      scanWhileLt nodes target fuel (prev_id - 1)
    else some prev_id

/-- `DynamicHuffman::slide_and_increment`: increment the node's weight
(`u32`, wrapping modelled with `% 2 ^ 32`), move it before its
equal-or-lighter group as needed, and return the next node to update.
`none` models the in-function `assert!`s and the `usize` underflows. -/
def slide_and_increment (num_symbols : Nat) (nodes0 : List Node)
    (node_id0 : Nat) : Option (List Node × Nat) :=
  let node := nodes0.getD node_id0 default
  let weight := node.weight
  let nodes := nodes0.set node_id0
    { node with weight := (node.weight + 2) % 2 ^ 32 }
  let parent_id := node.parent
  if node_id0 = 0 then none
  else
    let prev_id := node_id0 - 1
    let prev_weight := (nodes.getD prev_id default).weight
    if weight + 2 ≤ prev_weight ∨ prev_id = parent_id then
      some (nodes, parent_id)
    else
      match scanWhileEq nodes weight prev_id prev_id with
      | none => none
      | some p1 =>
        let prev_id1 := p1 + 1
        match (if prev_id1 < node_id0 then
            if parent_id < prev_id1 then
              let nodes1 := swap_subtrees nodes num_symbols node_id0 prev_id1
              some (nodes1, prev_id1,
                (nodes1.getD prev_id1 default).parent)
            else none
          else some (nodes, node_id0, parent_id)) with
        | none => none
        | some (nodes1, node_id1, parent_id1) =>
          match scanWhileLt nodes1 (weight + 2) p1 p1 with
          | none => none
          | some q =>
            let prev_id2 := q + 1
            match (if prev_id2 < node_id1 then
                if (nodes1.getD node_id1 default).parent < prev_id2 then
                  some (swap_subtrees nodes1 num_symbols node_id1 prev_id2,
                    prev_id2)
                else none
              else some (nodes1, node_id1)) with
            | none => none
            | some (nodes2, node_id2) =>
              if weight % 2 = 1 then some (nodes2, parent_id1)
              else some (nodes2, (nodes2.getD node_id2 default).parent)

/-- `DynamicHuffman::slide_and_increment_loop`; the loop is bounded by the
tree height on well-formed trees, on corrupted trees it can cycle, so it
carries fuel (`none` on exhaustion, modelling divergence). -/
def slide_loop (num_symbols : Nat) : Nat → List Node → Nat →
    Option (List Node)
  | 0, _, _ => none
  | fuel + 1, nodes, node_id =>
    match slide_and_increment num_symbols nodes node_id with
    | none => none
    | some p =>
      if p.2 = 0 then some p.1
      else slide_loop num_symbols fuel p.1 p.2

/-- `DynamicHuffman::add_new_symbol`. -/
def add_new_symbol (d : DynamicHuffman) (symbol : Nat) (fuel : Nat) :
    Option DynamicHuffman :=
  let nyt_id := d.nodes.length - 1
  let nodes1 := d.nodes.set nyt_id
    { (d.nodes.getD nyt_id default) with weight := 1, child := nyt_id + 1 }
  let nodes2 := nodes1 ++ [⟨2, nyt_id, symbol + 1⟩]
  let nodes3 := nodes2.set (symbol + 1)
    { (nodes2.getD (symbol + 1) default) with parent := nyt_id + 1 }
  let nodes4 := nodes3 ++ [⟨0, nyt_id, NYT_SYMBOL⟩]
  match slide_loop d.num_symbols fuel nodes4 nyt_id with
  | none => none
  | some nodes5 => some { d with nodes := nodes5 }

/-- The root-to-leaf walk of `DynamicHuffman::decode`; returns the leaf
node id, its `child` field and the bits consumed since the last refill. -/
def decodeWalk (nodes : List Node) (num_symbols : Nat) :
    Nat → Nat → Nat → Nat → Nat → BitReader →
    Option (Nat × Nat × Nat × BitReader)
  | 0, _, _, _, _, _ => none
  | fuel + 1, node_id, data, bits_avail, bits_consumed, r =>
    let child_id := (nodes.getD node_id default).child
    if child_id ≤ num_symbols then
      some (node_id, child_id, bits_consumed, r)
    else
      let msb := data >>> 63
      let node_id1 := child_id + msb
      let data1 := (data <<< 1) % 2 ^ 64
      let bc := bits_consumed + 1
      if bc = bits_avail then
        let r1 := (r.consume bits_avail).fill_data
        decodeWalk nodes num_symbols fuel node_id1 r1.peek r1.bits_avail 0 r1
      else
        decodeWalk nodes num_symbols fuel node_id1 data1 bits_avail bc r

/-- `DynamicHuffman::decode`: walk the tree by the peeked bits, consume the
code, then either read a raw symbol (NYT) or update the tree. -/
def DynamicHuffman.decode (d : DynamicHuffman) (r0 : BitReader)
    (fuel : Nat) : Option (Nat × DynamicHuffman × BitReader) :=
  let r := if r0.bits_avail < 16 then r0.fill_data else r0
  match decodeWalk d.nodes d.num_symbols fuel (d.num_symbols + 1) r.peek
      r.bits_avail 0 r with
  | none => none
  | some (node_id, child_id, bits_consumed, r1) =>
    let r2 := r1.consume bits_consumed
    if child_id = NYT_SYMBOL then
      let p := r2.read_bits d.symbol_bits
      match add_new_symbol d (p.1 % 2 ^ 16) fuel with
      | none => none
      | some d1 => some (p.1 % 2 ^ 16, reset_if_necessary d1, p.2)
    else
      match slide_loop d.num_symbols fuel d.nodes node_id with
      | none => none
      | some nodes1 =>
        some (child_id - 1,
          reset_if_necessary { d with nodes := nodes1 }, r2)

/-- The
tree invariants claimed for the adaptive codec, transcribed from the
claim: from the root index onward the weights are non-increasing; a node
whose `child` points past the symbol region is internal and must have
weight low bit 1, raw weight equal to the sum of its children's raw
weights, and both children's `parent` fields pointing back at it; every
other tree node is a leaf and must have weight low bit 0. -/
def treeInvariantsHold (d : DynamicHuffman) : Bool :=
  let root := d.num_symbols + 1
  let n := d.nodes.length
  ((List.range' root (n - root - 1)).all fun i =>
    (d.nodes.getD (i + 1) default).weight ≤
      (d.nodes.getD i default).weight) &&
  ((List.range' root (n - root)).all fun i =>
    let node := d.nodes.getD i default
    if d.num_symbols < node.child then
      (node.weight % 2 == 1) &&
      (node.weight ==
        ((d.nodes.getD node.child default).weight / 2 +
          (d.nodes.getD (node.child + 1) default).weight / 2) * 2 + 1) &&
      ((d.nodes.getD node.child default).parent == i) &&
      ((d.nodes.getD (node.child + 1) default).parent == i)
    else node.weight % 2 == 0)

/-! # Theorems

## Generic lemmas about bit lists -/

theorem natToBits_length (n v : Nat) : (natToBits n v).length = n := by
  induction n generalizing v with
  | zero => rfl
  | succ n ih => simp [natToBits, ih]

theorem natToBits_split (m n v : Nat) :
    natToBits (m + n) v = natToBits m (v >>> n) ++ natToBits n v := by
  induction m with
  | zero => simp [natToBits]
  | succ m ih =>
    have h1 : m + 1 + n = (m + n) + 1 := by omega
    rw [h1]
    simp only [natToBits, ih, List.cons_append]
    rw [Nat.testBit_shiftRight, Nat.add_comm n m]

theorem natToBits_congr {n v w : Nat} (h : ∀ i, i < n → v.testBit i = w.testBit i) :
    natToBits n v = natToBits n w := by
  induction n with
  | zero => rfl
  | succ n ih =>
    simp only [natToBits]
    rw [h n (by omega), ih fun i hi => h i (by omega)]

theorem natToBits_mod (n v : Nat) : natToBits n (v % 2 ^ n) = natToBits n v := by
  refine natToBits_congr fun i hi => ?_
  rw [Nat.testBit_mod_two_pow]
  simp [hi]

theorem natToBits_zero (n : Nat) : natToBits n 0 = List.replicate n false := by
  induction n with
  | zero => rfl
  | succ n ih => simp [natToBits, Nat.zero_testBit, ih, List.replicate_succ]

theorem bitsToNat_go (l : List Bool) (a : Nat) :
    l.foldl (fun a b => 2 * a + b.toNat) a = a * 2 ^ l.length + bitsToNat l := by
  induction l generalizing a with
  | nil => simp [bitsToNat]
  | cons b l ih =>
    have hb : bitsToNat (b :: l) = b.toNat * 2 ^ l.length + bitsToNat l := by
      show List.foldl _ (2 * 0 + b.toNat) l = _
      rw [ih]
      ring_nf
    simp only [List.foldl_cons, List.length_cons]
    rw [ih, hb]
    ring

theorem bitsToNat_cons (b : Bool) (l : List Bool) :
    bitsToNat (b :: l) = b.toNat * 2 ^ l.length + bitsToNat l := by
  show List.foldl _ (2 * 0 + b.toNat) l = _
  rw [bitsToNat_go]
  ring_nf

theorem bitsToNat_append (l m : List Bool) :
    bitsToNat (l ++ m) = bitsToNat l * 2 ^ m.length + bitsToNat m := by
  unfold bitsToNat
  rw [List.foldl_append, bitsToNat_go]
  rfl

theorem bitsToNat_lt (l : List Bool) : bitsToNat l < 2 ^ l.length := by
  induction l with
  | nil => simp [bitsToNat]
  | cons b l ih =>
    rw [bitsToNat_cons]
    have : b.toNat ≤ 1 := Bool.toNat_le b
    simp only [List.length_cons, pow_succ]
    nlinarith

theorem bitsToNat_natToBits (n v : Nat) : bitsToNat (natToBits n v) = v % 2 ^ n := by
  induction n with
  | zero => simp [natToBits, bitsToNat, Nat.mod_one]
  | succ n ih =>
    simp only [natToBits]
    rw [bitsToNat_cons, natToBits_length, ih, Nat.mod_pow_succ]
    have : (v.testBit n).toNat = v / 2 ^ n % 2 := by
      rw [Nat.testBit_to_div_mod]
      rcases Nat.mod_two_eq_zero_or_one (v / 2 ^ n) with h | h <;> simp [h]
    rw [this]
    ring

theorem bitsToNat_replicate_false (n : Nat) :
    bitsToNat (List.replicate n false) = 0 := by
  rw [← natToBits_zero, bitsToNat_natToBits]
  simp

theorem natToBits_take {m n : Nat} (v : Nat) (h : m ≤ n) :
    (natToBits n v).take m = natToBits m (v >>> (n - m)) := by
  have h1 : natToBits n v = natToBits m (v >>> (n - m)) ++ natToBits (n - m) v := by
    conv_lhs => rw [show n = m + (n - m) by omega]
    exact natToBits_split _ _ _
  rw [h1, List.take_left' (natToBits_length _ _)]

theorem natToBits_drop {m n : Nat} (v : Nat) (h : m ≤ n) :
    (natToBits n v).drop m = natToBits (n - m) v := by
  have h1 : natToBits n v = natToBits m (v >>> (n - m)) ++ natToBits (n - m) v := by
    conv_lhs => rw [show n = m + (n - m) by omega]
    exact natToBits_split _ _ _
  rw [h1, List.drop_left' (natToBits_length _ _)]

theorem bitsToNat_take_natToBits {m n : Nat} (v : Nat) (h : m ≤ n) (hv : v < 2 ^ n) :
    bitsToNat ((natToBits n v).take m) = v >>> (n - m) := by
  rw [natToBits_take v h, bitsToNat_natToBits, Nat.shiftRight_eq_div_pow,
    Nat.mod_eq_of_lt]
  apply Nat.div_lt_of_lt_mul
  calc v < 2 ^ n := hv
    _ = 2 ^ (n - m) * 2 ^ m := by rw [← pow_add]; congr 1; omega

theorem bytesToBits_nil : bytesToBits [] = [] := rfl

theorem bytesToBits_cons (b : Nat) (bs : List Nat) :
    bytesToBits (b :: bs) = natToBits 8 b ++ bytesToBits bs := by
  simp [bytesToBits]

theorem bytesToBits_append (l m : List Nat) :
    bytesToBits (l ++ m) = bytesToBits l ++ bytesToBits m := by
  simp [bytesToBits]

theorem bytesToBits_length (bs : List Nat) : (bytesToBits bs).length = 8 * bs.length := by
  induction bs with
  | nil => rfl
  | cons b bs ih =>
    rw [bytesToBits_cons, List.length_append, natToBits_length, ih,
      List.length_cons]
    ring

/-! ## Bitwise arithmetic helpers -/

theorem lor_shiftRight_distrib (a b n : Nat) :
    (a ||| b) >>> n = a >>> n ||| b >>> n := by
  apply Nat.eq_of_testBit_eq
  intro i
  simp [Nat.testBit_shiftRight, Nat.testBit_lor]

theorem testBit_mul_pow (c n i : Nat) :
    (2 ^ n * c).testBit i = if i < n then false else c.testBit (i - n) := by
  have h0 : (0 : Nat) < 2 ^ n := Nat.pos_pow_of_pos _ (by norm_num)
  have h := Nat.testBit_mul_pow_two_add c h0 i
  rw [Nat.add_zero] at h
  rw [h]
  simp [Nat.zero_testBit]

theorem lor_eq_add {a b n : Nat} (ha : a % 2 ^ n = 0) (hb : b < 2 ^ n) :
    a ||| b = a + b := by
  obtain ⟨c, hc⟩ : 2 ^ n ∣ a := Nat.dvd_of_mod_eq_zero ha
  subst hc
  apply Nat.eq_of_testBit_eq
  intro i
  rw [Nat.testBit_lor, testBit_mul_pow, Nat.testBit_mul_pow_two_add c hb i]
  by_cases h : i < n
  · simp [h]
  · have hb2 : b.testBit i = false :=
      Nat.testBit_lt_two_pow
        (lt_of_lt_of_le hb (Nat.pow_le_pow_right (by norm_num) (by omega)))
    simp [h, hb2]

/-! ## Padding helpers -/

theorem replicate_append_replicate (a b : Nat) :
    (List.replicate a false ++ List.replicate b false) = List.replicate (a + b) false :=
  (List.replicate_add a b false).symm

theorem drop_append_replicate (n z : Nat) (xs : List Bool) :
    (xs ++ List.replicate z false).drop n
      = xs.drop n ++ List.replicate (z - (n - xs.length)) false := by
  by_cases h : n ≤ xs.length
  · rw [List.drop_append_of_le_length h, show n - xs.length = 0 by omega,
      Nat.sub_zero]
  · have h1 : (xs ++ List.replicate z false).drop n
        = List.replicate (z - (n - xs.length)) false := by
      conv_lhs => rw [show n = xs.length + (n - xs.length) by omega]
      rw [List.drop_append, List.drop_replicate]
    have h2 : xs.drop n = [] := List.drop_eq_nil_of_le (by omega)
    rw [h1, h2, List.nil_append]

theorem take_append_replicate {n m : Nat} (xs : List Bool) (h : n - xs.length ≤ m) :
    (xs ++ List.replicate m false).take n = padTake xs n := by
  unfold padTake
  by_cases hn : n ≤ xs.length
  · rw [List.take_append_of_le_length hn]
    have : n - xs.length = 0 := by omega
    rw [this]
    simp
  · rw [show n = xs.length + (n - xs.length) by omega, List.take_append,
      List.take_replicate, List.take_of_length_le (by omega)]
    congr 2
    omega

theorem padTake_length (xs : List Bool) (n : Nat) : (padTake xs n).length = n := by
  unfold padTake
  rw [List.length_append, List.length_take, List.length_replicate]
  omega

/-! ## Bytes-to-bits conversion lemmas -/

theorem bytesToBits_to_be_bytes (d : Nat) :
    bytesToBits (to_be_bytes d) = natToBits 64 d := by
  have c : ∀ s, natToBits 8 ((d >>> s) % 256) = natToBits 8 (d >>> s) := fun s => by
    rw [show (256 : Nat) = 2 ^ 8 by norm_num, natToBits_mod]
  have c0 : natToBits 8 (d % 256) = natToBits 8 d := by
    rw [show (256 : Nat) = 2 ^ 8 by norm_num, natToBits_mod]
  have sp : ∀ m, natToBits (8 + m) d = natToBits 8 (d >>> m) ++ natToBits m d :=
    fun m => natToBits_split 8 m d
  simp only [to_be_bytes, bytesToBits, List.map_cons, List.map_nil,
    List.flatten_cons, List.flatten_nil, List.append_nil, c, c0]
  rw [← sp 8, show (8 + 8 : Nat) = 16 by norm_num,
    ← sp 16, show (8 + 16 : Nat) = 24 by norm_num,
    ← sp 24, show (8 + 24 : Nat) = 32 by norm_num,
    ← sp 32, show (8 + 32 : Nat) = 40 by norm_num,
    ← sp 40, show (8 + 40 : Nat) = 48 by norm_num,
    ← sp 48, show (8 + 48 : Nat) = 56 by norm_num,
    ← sp 56, show (8 + 56 : Nat) = 64 by norm_num]

theorem bytesToBits_take (bs : List Nat) (k : Nat) :
    bytesToBits (bs.take k) = (bytesToBits bs).take (8 * k) := by
  induction k generalizing bs with
  | zero => simp [bytesToBits]
  | succ k ih =>
    cases bs with
    | nil => simp [bytesToBits]
    | cons b bs =>
      rw [List.take_succ_cons, bytesToBits_cons, bytesToBits_cons, ih,
        show 8 * (k + 1) = (natToBits 8 b).length + 8 * k by
          rw [natToBits_length]; ring,
        List.take_append]

theorem beBytesToNat_go (l : List Nat) (a : Nat) :
    l.foldl (fun a b => a * 256 + b) a = a * 256 ^ l.length + beBytesToNat l := by
  induction l generalizing a with
  | nil => simp [beBytesToNat]
  | cons b l ih =>
    have hb : beBytesToNat (b :: l) = b * 256 ^ l.length + beBytesToNat l := by
      show List.foldl _ (0 * 256 + b) l = _
      rw [ih]
      ring_nf
    simp only [List.foldl_cons, List.length_cons]
    rw [ih, hb]
    ring

theorem beBytesToNat_cons (b : Nat) (l : List Nat) :
    beBytesToNat (b :: l) = b * 256 ^ l.length + beBytesToNat l := by
  show List.foldl _ (0 * 256 + b) l = _
  rw [beBytesToNat_go]
  ring_nf

theorem pow256_eq (n : Nat) : (256 : Nat) ^ n = 2 ^ (8 * n) := by
  rw [show (256 : Nat) = 2 ^ 8 by norm_num, ← pow_mul]

theorem beBytesToNat_lt (l : List Nat) (h : ∀ b ∈ l, b < 256) :
    beBytesToNat l < 2 ^ (8 * l.length) := by
  induction l with
  | nil => simp [beBytesToNat]
  | cons b l ih =>
    rw [beBytesToNat_cons, pow256_eq]
    have hb : b < 256 := h b (by simp)
    have hl : beBytesToNat l < 2 ^ (8 * l.length) := ih fun x hx => h x (by simp [hx])
    have : 8 * (b :: l).length = 8 + 8 * l.length := by
      rw [List.length_cons]; ring
    rw [this, pow_add]
    nlinarith

theorem natToBits_beBytesToNat (l : List Nat) (h : ∀ b ∈ l, b < 256) :
    natToBits (8 * l.length) (beBytesToNat l) = bytesToBits l := by
  induction l with
  | nil => simp [beBytesToNat, natToBits, bytesToBits]
  | cons b l ih =>
    have hb : b < 256 := h b (by simp)
    have hl : beBytesToNat l < 2 ^ (8 * l.length) := beBytesToNat_lt l
      fun x hx => h x (by simp [hx])
    have hlen : 8 * (b :: l).length = 8 + 8 * l.length := by
      rw [List.length_cons]; ring
    rw [hlen, beBytesToNat_cons, pow256_eq, natToBits_split, bytesToBits_cons]
    congr 1
    · congr 1
      rw [Nat.shiftRight_eq_div_pow, Nat.mul_comm b, Nat.mul_add_div
        (Nat.pos_pow_of_pos _ (by norm_num)), Nat.div_eq_of_lt hl]
      omega
    · rw [← natToBits_mod]
      have : (b * 2 ^ (8 * l.length) + beBytesToNat l) % 2 ^ (8 * l.length)
          = beBytesToNat l := by
        rw [Nat.mul_comm b, Nat.mul_add_mod, Nat.mod_eq_of_lt hl]
      rw [this, ih fun x hx => h x (by simp [hx])]

/-! ## Shift-operation arithmetic -/

theorem shift_left_mod (v : Nat) {k : Nat} (hk : k ≤ 64) :
    shift_left v k = v % 2 ^ (64 - k) * 2 ^ k := by
  unfold shift_left
  by_cases h : k = 64
  · subst h
    simp [Nat.mod_one]
  · rw [if_neg h, Nat.shiftLeft_eq]
    show v * 2 ^ k % U64 = _
    have hu : U64 = 2 ^ (64 - k) * 2 ^ k := by
      rw [← pow_add]
      show U64 = 2 ^ (64 - k + k)
      unfold U64
      congr 1
      omega
    rw [hu, Nat.mul_mod_mul_right]

theorem shift_left_small {v k : Nat} (hk : k ≤ 64) (hv : v < 2 ^ (64 - k)) :
    shift_left v k = v * 2 ^ k := by
  rw [shift_left_mod v hk, Nat.mod_eq_of_lt hv]

theorem shift_right_small {v : Nat} (n : Nat) (h : v < U64) :
    shift_right v n = v >>> n := by
  unfold shift_right
  by_cases hn : n = 64
  · subst hn
    have h2 : v < 2 ^ 64 := h
    rw [if_pos rfl, Nat.shiftRight_eq_div_pow, Nat.div_eq_of_lt h2]
  · rw [if_neg hn]

theorem add_mul_pow_shiftRight {c v n : Nat} (hv : v < 2 ^ n) :
    (c * 2 ^ n + v) >>> n = c := by
  rw [Nat.shiftRight_eq_div_pow, Nat.mul_comm,
    Nat.mul_add_div (Nat.pos_pow_of_pos _ (by norm_num)), Nat.div_eq_of_lt hv,
    Nat.add_zero]

theorem add_mul_pow_mod {c v n : Nat} (hv : v < 2 ^ n) :
    (c * 2 ^ n + v) % 2 ^ n = v := by
  rw [Nat.mul_comm, Nat.mul_add_mod, Nat.mod_eq_of_lt hv]

/-! ## BitWriter: invariant and abstraction lemmas -/

theorem to_be_bytes_lt (d : Nat) : ∀ b ∈ to_be_bytes d, b < 256 := by
  intro b hb
  simp only [to_be_bytes, List.mem_cons, List.not_mem_nil, or_false] at hb
  rcases hb with rfl | rfl | rfl | rfl | rfl | rfl | rfl | rfl <;>
    exact Nat.mod_lt _ (by norm_num)

theorem writerInv_new : WriterInv BitWriter.new := by
  constructor <;> simp [BitWriter.new, U64]

theorem wbits_new : wbits BitWriter.new = [] := by
  simp [wbits, BitWriter.new, bytesToBits]

theorem data_decomp {w : BitWriter} (h : WriterInv w) :
    w.data = w.data >>> w.bits_avail * 2 ^ w.bits_avail ∧
      w.data >>> w.bits_avail < 2 ^ (64 - w.bits_avail) := by
  constructor
  · rw [Nat.shiftRight_eq_div_pow]
    rw [Nat.div_mul_cancel (Nat.dvd_of_mod_eq_zero h.low_zero)]
  · have hba := h.avail_le
    rw [Nat.shiftRight_eq_div_pow]
    apply Nat.div_lt_of_lt_mul
    calc w.data < U64 := h.data_lt
      _ = 2 ^ w.bits_avail * 2 ^ (64 - w.bits_avail) := by
        unfold U64
        rw [← pow_add]
        congr 1
        omega

theorem write_u64_spec (w : BitWriter) (d : Nat) :
    (w.write_u64 d).data = w.data ∧ (w.write_u64 d).bits_avail = w.bits_avail ∧
    (w.write_u64 d).out ++ (w.write_u64 d).buf = (w.out ++ w.buf) ++ to_be_bytes d ∧
    (w.bytes_written = w.out.length →
      (w.write_u64 d).bytes_written = (w.write_u64 d).out.length) := by
  unfold BitWriter.write_u64 BitWriter.flush
  simp only [List.length_append]
  by_cases h : BUF_SIZE ≤ w.buf.length + (to_be_bytes d).length
  · rw [if_pos h]
    refine ⟨rfl, rfl, by simp, fun h2 => ?_⟩
    simp [h2]
  · rw [if_neg h]
    exact ⟨rfl, rfl, by simp, fun h2 => by simp [h2]⟩

theorem flush_wbits (w : BitWriter) : wbits w.flush = wbits w := by
  simp [wbits, BitWriter.flush]

theorem pow_sub_mul {a b : Nat} (h : b ≤ a) : 2 ^ (a - b) * 2 ^ b = 2 ^ a := by
  rw [← pow_add]
  congr 1
  omega

theorem mod_pow_zero_of_le {d a b : Nat} (h : b ≤ a) (hd : d % 2 ^ a = 0) :
    d % 2 ^ b = 0 := by
  have h1 : 2 ^ b ∣ d :=
    dvd_trans (pow_dvd_pow 2 h) (Nat.dvd_of_mod_eq_zero hd)
  obtain ⟨k, rfl⟩ := h1
  exact Nat.mul_mod_right _ _

/-- The central `BitWriter::write_bits` lemma: under the writer invariant,
writing `bits ≤ 64` bits of a value `v < 2 ^ bits` preserves the invariant
and appends exactly the `bits`-bit big-endian representation of `v` to the
abstract bit stream. -/
theorem write_bits_spec {w : BitWriter} {v bits : Nat} (h : WriterInv w)
    (hb : bits ≤ 64) (hv : v < 2 ^ bits) :
    WriterInv (w.write_bits v bits) ∧
      wbits (w.write_bits v bits) = wbits w ++ natToBits bits v := by
  obtain ⟨hdec, hstored⟩ := data_decomp h
  have hba := h.avail_le
  unfold BitWriter.write_bits
  by_cases hfast : bits ≤ w.bits_avail
  · rw [if_pos hfast]
    set ba := w.bits_avail with hbadef
    set s := ba - bits with hs
    set c := w.data >>> ba with hcdef
    have hs64 : s ≤ 64 := by omega
    have hveq : shift_left v s = v * 2 ^ s := by
      apply shift_left_small hs64
      calc v < 2 ^ bits := hv
        _ ≤ 2 ^ (64 - s) := Nat.pow_le_pow_right (by norm_num) (by omega)
    have hvlt : v * 2 ^ s < 2 ^ ba := by
      calc v * 2 ^ s < 2 ^ bits * 2 ^ s :=
            mul_lt_mul_of_pos_right hv (Nat.pos_pow_of_pos _ (by norm_num))
        _ = 2 ^ ba := by rw [← pow_add]; congr 1; omega
    have hlor : w.data ||| shift_left v s = w.data + v * 2 ^ s := by
      rw [hveq]
      exact lor_eq_add h.low_zero hvlt
    have hdata_lt : w.data + v * 2 ^ s < U64 := by
      have hsplit : 2 ^ (64 - ba) * 2 ^ ba = U64 := by
        unfold U64
        exact pow_sub_mul hba
      nlinarith [hdec, hstored, hvlt]
    have hshift : (w.data + v * 2 ^ s) >>> s = c * 2 ^ (ba - s) + v := by
      have hd2 : w.data + v * 2 ^ s = (c * 2 ^ (ba - s) + v) * 2 ^ s + 0 := by
        rw [Nat.add_zero, Nat.add_mul, Nat.mul_assoc, pow_sub_mul (by omega)]
        rw [← hdec]
      rw [hd2]
      exact add_mul_pow_shiftRight (Nat.pos_pow_of_pos _ (by norm_num))
    have hbits : ba - s = bits := by omega
    refine ⟨⟨by rw [hlor]; exact hdata_lt, by show s ≤ 64; omega, ?_,
      h.bytes_lt, h.written_eq⟩, ?_⟩
    · show (w.data ||| shift_left v s) % 2 ^ s = 0
      rw [hlor]
      have h1 : 2 ^ s ∣ w.data :=
        dvd_trans (pow_dvd_pow 2 (by omega)) (Nat.dvd_of_mod_eq_zero h.low_zero)
      have h2 : 2 ^ s ∣ v * 2 ^ s := Dvd.intro_left v rfl
      obtain ⟨k, hk⟩ := Nat.dvd_add h1 h2
      rw [hk]
      exact Nat.mul_mod_right _ _
    · show bytesToBits (w.out ++ w.buf) ++
          (natToBits 64 (w.data ||| shift_left v s)).take (64 - s) =
        (bytesToBits (w.out ++ w.buf) ++ (natToBits 64 w.data).take (64 - ba)) ++
          natToBits bits v
      rw [List.append_assoc]
      congr 1
      rw [hlor, natToBits_take _ (by omega), show (64 : Nat) - (64 - s) = s by omega,
        hshift, hbits, show (64 : Nat) - s = (64 - ba) + bits by omega,
        natToBits_split, add_mul_pow_shiftRight hv, ← natToBits_mod bits,
        add_mul_pow_mod hv, natToBits_take _ (by omega),
        show (64 : Nat) - (64 - ba) = ba by omega]
  · rw [if_neg hfast]
    set ba := w.bits_avail with hbadef
    set c := w.data >>> ba with hcdef
    set rem := bits - ba with hrem
    have hrem1 : 1 ≤ rem := by omega
    have hrem64 : rem ≤ 64 := by omega
    have hshr : shift_right v rem = v >>> rem :=
      shift_right_small rem (lt_of_lt_of_le hv (by
        unfold U64; exact Nat.pow_le_pow_right (by norm_num) hb))
    have hvr_lt : v >>> rem < 2 ^ ba := by
      rw [Nat.shiftRight_eq_div_pow]
      apply Nat.div_lt_of_lt_mul
      calc v < 2 ^ bits := hv
        _ = 2 ^ rem * 2 ^ ba := by rw [← pow_add]; congr 1; omega
    have hlor : w.data ||| shift_right v rem = w.data + v >>> rem := by
      rw [hshr]
      exact lor_eq_add h.low_zero hvr_lt
    have hdtw_lt : w.data + v >>> rem < U64 := by
      have hsplit : 2 ^ (64 - ba) * 2 ^ ba = U64 := by
        unfold U64
        exact pow_sub_mul hba
      nlinarith [hdec, hstored, hvr_lt]
    obtain ⟨hu1, hu2, hu3, hu4⟩ :=
      write_u64_spec w (w.data ||| shift_right v rem)
    have hnba : 64 - rem < 64 := by omega
    have hdata2 : shift_left v (64 - rem) = v % 2 ^ rem * 2 ^ (64 - rem) := by
      rw [shift_left_mod v (by omega), show (64 : Nat) - (64 - rem) = rem by omega]
    refine ⟨⟨?_, by show 64 - rem ≤ 64; omega, ?_, ?_, ?_⟩, ?_⟩
    · show shift_left v (64 - rem) < U64
      rw [hdata2]
      calc v % 2 ^ rem * 2 ^ (64 - rem) < 2 ^ rem * 2 ^ (64 - rem) :=
            mul_lt_mul_of_pos_right (Nat.mod_lt _ (Nat.pos_pow_of_pos _ (by norm_num)))
              (Nat.pos_pow_of_pos _ (by norm_num))
        _ = U64 := by unfold U64; rw [← pow_add]; congr 1; omega
    · show shift_left v (64 - rem) % 2 ^ (64 - rem) = 0
      rw [hdata2, Nat.mul_mod_left]
    · show ∀ b ∈ (w.write_u64 (w.data ||| shift_right v rem)).out ++
          (w.write_u64 (w.data ||| shift_right v rem)).buf, b < 256
      rw [hu3]
      intro b hb2
      rcases List.mem_append.mp hb2 with h1 | h1
      · exact h.bytes_lt b h1
      · exact to_be_bytes_lt _ b h1
    · show (w.write_u64 (w.data ||| shift_right v rem)).bytes_written =
        (w.write_u64 (w.data ||| shift_right v rem)).out.length
      exact hu4 h.written_eq
    · show bytesToBits ((w.write_u64 (w.data ||| shift_right v rem)).out ++
            (w.write_u64 (w.data ||| shift_right v rem)).buf) ++
          (natToBits 64 (shift_left v (64 - rem))).take (64 - (64 - rem)) =
        (bytesToBits (w.out ++ w.buf) ++ (natToBits 64 w.data).take (64 - ba)) ++
          natToBits bits v
      rw [hu3, bytesToBits_append, hlor]
      have hdtw : w.data + v >>> rem = (c * 2 ^ ba + v >>> rem) := by rw [← hdec]
      have e1 : bytesToBits (to_be_bytes (w.data + v >>> rem)) =
          natToBits (64 - ba) c ++ natToBits ba (v >>> rem) := by
        have h1 := natToBits_split (64 - ba) ba (c * 2 ^ ba + v >>> rem)
        rw [show 64 - ba + ba = 64 by omega, add_mul_pow_shiftRight hvr_lt,
          ← natToBits_mod ba, add_mul_pow_mod hvr_lt] at h1
        rw [bytesToBits_to_be_bytes, hdtw, h1]
      have e2 : (natToBits 64 (shift_left v (64 - rem))).take (64 - (64 - rem)) =
          natToBits rem v := by
        have hsr : (v % 2 ^ rem * 2 ^ (64 - rem)) >>> (64 - rem) = v % 2 ^ rem := by
          have h0 := @add_mul_pow_shiftRight (v % 2 ^ rem) 0
            (64 - rem) (Nat.pos_pow_of_pos _ (by norm_num))
          rwa [Nat.add_zero] at h0
        rw [hdata2, natToBits_take _ (by omega),
          show (64 : Nat) - (64 - (64 - rem)) = 64 - rem by omega, hsr,
          show (64 : Nat) - (64 - rem) = rem by omega, natToBits_mod]
      rw [e1, e2, natToBits_take _ (by omega),
        show (64 : Nat) - (64 - ba) = ba by omega,
        show natToBits bits v = natToBits ba (v >>> rem) ++ natToBits rem v by
          rw [show bits = ba + rem by omega, natToBits_split]]
      simp only [List.append_assoc]

theorem wbits_length {w : BitWriter} (h : WriterInv w) :
    (wbits w).length = 8 * (w.out.length + w.buf.length) + (64 - w.bits_avail) := by
  unfold wbits
  rw [List.length_append, bytesToBits_length, List.length_take,
    natToBits_length, List.length_append]
  have := h.avail_le
  omega

/-- `BitWriter::finish` emits the abstract bit stream, zero-padded to a byte
boundary, and reports exactly `ceil(bits / 8)` bytes. -/
theorem finish_spec {w : BitWriter} (h : WriterInv w) :
    ∃ pad < 8, bytesToBits (w.finish.1).out = wbits w ++ List.replicate pad false ∧
      8 * ((w.finish.1).out).length = (wbits w).length + pad ∧
      w.finish.2 = ((w.finish.1).out).length ∧
      ∀ b ∈ (w.finish.1).out, b < 256 := by
  obtain ⟨hdec, hstored⟩ := data_decomp h
  have hba := h.avail_le
  set ba := w.bits_avail with hbadef
  set c := w.data >>> ba with hcdef
  set m := 64 - ba with hm
  set nb := (64 + 7 - ba) / 8 with hnb
  have hmK : m ≤ 8 * nb := by omega
  have hpad : 8 * nb - m < 8 := by omega
  refine ⟨8 * nb - m, hpad, ?_⟩
  have hnb8 : nb ≤ 8 := by omega
  have hsr : w.data >>> (64 - m - (8 * nb - m)) = c * 2 ^ (8 * nb - m) := by
    conv_lhs => rw [hdec]
    rw [Nat.shiftRight_eq_div_pow,
      show (2 : Nat) ^ ba = 2 ^ (8 * nb - m) * 2 ^ (64 - m - (8 * nb - m)) by
        rw [← pow_add]; congr 1; omega,
      ← Nat.mul_assoc]
    exact Nat.mul_div_cancel _ (Nat.pos_pow_of_pos _ (by norm_num))
  have htake_split : (natToBits 64 w.data).take (8 * nb) =
      (natToBits 64 w.data).take m ++
        ((natToBits 64 w.data).drop m).take (8 * nb - m) := by
    conv_lhs => rw [show 8 * nb = m + (8 * nb - m) by omega]
    exact List.take_add _ _ _
  have htaken : bytesToBits ((to_be_bytes w.data).take nb) =
      (natToBits 64 w.data).take m ++ List.replicate (8 * nb - m) false := by
    rw [bytesToBits_take, bytesToBits_to_be_bytes, htake_split,
      natToBits_drop _ (by omega),
      @natToBits_take (8 * nb - m) (64 - m) w.data (by omega), hsr,
      ← natToBits_mod (8 * nb - m) (c * 2 ^ (8 * nb - m)), Nat.mul_mod_left,
      natToBits_zero]
  simp only [BitWriter.finish, BitWriter.flush]
  by_cases h0 : 0 < nb
  · rw [if_pos (show 0 < (64 + 7 - w.bits_avail) / 8 by omega)]
    refine ⟨?_, ?_, ?_, ?_⟩
    · show bytesToBits (w.out ++ (w.buf ++ (to_be_bytes w.data).take ((64 + 7 - w.bits_avail) / 8))) = _
      rw [show (64 + 7 - w.bits_avail) / 8 = nb by omega, ← List.append_assoc,
        bytesToBits_append, htaken, wbits]
      simp [List.append_assoc]
    · show 8 * (w.out ++ (w.buf ++ (to_be_bytes w.data).take ((64 + 7 - w.bits_avail) / 8))).length = _
      rw [show (64 + 7 - w.bits_avail) / 8 = nb by omega, wbits_length h]
      simp only [List.length_append, List.length_take, to_be_bytes,
        List.length_cons, List.length_nil]
      omega
    · show w.bytes_written + (w.buf ++ (to_be_bytes w.data).take ((64 + 7 - w.bits_avail) / 8)).length =
        (w.out ++ (w.buf ++ (to_be_bytes w.data).take ((64 + 7 - w.bits_avail) / 8))).length
      rw [h.written_eq]
      simp
    · intro b hb
      rcases List.mem_append.mp hb with h1 | h1
      · exact h.bytes_lt b (List.mem_append.mpr (Or.inl h1))
      rcases List.mem_append.mp h1 with h2 | h2
      · exact h.bytes_lt b (List.mem_append.mpr (Or.inr h2))
      · exact to_be_bytes_lt _ b (List.mem_of_mem_take h2)
  · rw [if_neg (show ¬ 0 < (64 + 7 - w.bits_avail) / 8 by omega)]
    have hm0 : m = 0 := by omega
    have hnb0 : nb = 0 := by omega
    refine ⟨?_, ?_, ?_, ?_⟩
    · show bytesToBits (w.out ++ w.buf) = _
      rw [wbits, show 64 - w.bits_avail = 0 by omega]
      simp [show 8 * nb - m = 0 by omega]
    · rw [wbits_length h]
      simp only [List.length_append]
      omega
    · show w.bytes_written + w.buf.length = (w.out ++ w.buf).length
      rw [h.written_eq]
      simp
    · intro b hb
      exact h.bytes_lt b hb

/-! ## BitReader: operational lemmas -/

theorem consumedBytes_def (r : BitReader) :
    r.consumedBytes = r.bytes_read - (r.buf.length - r.buf_pos) := rfl

/-- Behaviour of `BitReader::next_u64` over a well-formed buffered state: it
hands back the next (up to) 8 unconsumed source bytes, zero-padded, and
consumes them. -/
theorem next_u64_ok {src0 : List Nat} {r : BitReader}
    (hpos : r.buf_pos ≤ r.buf.length)
    (hsrc : r.src = src0.drop r.bytes_read)
    (hunread : r.buf.drop r.buf_pos ++ r.src = src0.drop r.consumedBytes)
    (hread : r.bytes_read ≤ src0.length) :
    r.next_u64.1 = beBytesToNat ((src0.drop r.consumedBytes).take 8 ++
      List.replicate (8 - min 8 (src0.length - r.consumedBytes)) 0) ∧
    r.next_u64.2.data = r.data ∧
    r.next_u64.2.bits_avail = r.bits_avail ∧
    r.next_u64.2.consumedBytes =
      r.consumedBytes + min 8 (src0.length - r.consumedBytes) ∧
    r.next_u64.2.buf_pos ≤ r.next_u64.2.buf.length ∧
    r.next_u64.2.src = src0.drop r.next_u64.2.bytes_read ∧
    r.next_u64.2.buf.drop r.next_u64.2.buf_pos ++ r.next_u64.2.src =
      src0.drop r.next_u64.2.consumedBytes ∧
    r.next_u64.2.bytes_read ≤ src0.length := by
  have hbc := consumedBytes_def r
  have hsrclen : r.src.length = src0.length - r.bytes_read := by
    rw [hsrc, List.length_drop]
  have hlens : (r.buf.length - r.buf_pos) + r.src.length
      = src0.length - r.consumedBytes := by
    have h1 := congrArg List.length hunread
    rw [List.length_append, List.length_drop, List.length_drop] at h1
    exact h1
  have hbd : r.buf.drop r.buf_pos =
      (src0.drop r.consumedBytes).take (r.buf.length - r.buf_pos) := by
    rw [← hunread]
    rw [List.take_left' (by rw [List.length_drop])]
  have hsrcrem : r.src = (src0.drop r.consumedBytes).drop
      (r.buf.length - r.buf_pos) := by
    rw [← hunread]
    rw [List.drop_left' (by rw [List.length_drop])]
  by_cases hcase : r.buf_pos + 8 ≤ r.buf.length
  · have hres : r.next_u64 = (beBytesToNat ((r.buf.drop r.buf_pos).take 8),
        { r with buf_pos := r.buf_pos + 8 }) := by
      simp only [BitReader.next_u64]
      rw [if_pos hcase]
    rw [hres]
    have hk : min 8 (src0.length - r.consumedBytes) = 8 := by omega
    refine ⟨?_, rfl, rfl, ?_, ?_, ?_, ?_, ?_⟩
    · show beBytesToNat ((r.buf.drop r.buf_pos).take 8) = _
      rw [hbd, List.take_take, show min 8 (r.buf.length - r.buf_pos) = 8 by omega,
        hk]
      simp
    · show r.bytes_read - (r.buf.length - (r.buf_pos + 8)) = _
      rw [hk]
      omega
    · show r.buf_pos + 8 ≤ r.buf.length
      exact hcase
    · exact hsrc
    · show r.buf.drop (r.buf_pos + 8) ++ r.src =
        src0.drop (r.bytes_read - (r.buf.length - (r.buf_pos + 8)))
      have e := congrArg (List.drop 8) hunread
      rw [List.drop_append_of_le_length (by rw [List.length_drop]; omega),
        List.drop_drop, List.drop_drop] at e
      rw [show r.bytes_read - (r.buf.length - (r.buf_pos + 8))
          = r.consumedBytes + 8 by omega]
      exact e
    · exact hread
  · have hhl7 : r.buf.length - r.buf_pos ≤ 7 := by omega
    have hheadlen : (r.buf.drop r.buf_pos).length = r.buf.length - r.buf_pos :=
      List.length_drop _ _
    have hB8 : (8 : Nat) ≤ BUF_SIZE := by norm_num [BUF_SIZE]
    have hBval : BUF_SIZE = 8192 := rfl
    have hres : r.next_u64 = (beBytesToNat (r.buf.drop r.buf_pos ++
          (r.src.take BUF_SIZE).take (min (8 - (r.buf.drop r.buf_pos).length)
            (r.src.take BUF_SIZE).length) ++
          List.replicate (8 - (r.buf.drop r.buf_pos).length -
            min (8 - (r.buf.drop r.buf_pos).length) (r.src.take BUF_SIZE).length) 0),
        { data := r.data, bits_avail := r.bits_avail, buf := r.src.take BUF_SIZE,
          buf_pos := min (8 - (r.buf.drop r.buf_pos).length)
            (r.src.take BUF_SIZE).length,
          src := r.src.drop BUF_SIZE,
          bytes_read := r.bytes_read + (r.src.take BUF_SIZE).length }) := by
      simp only [BitReader.next_u64, BitReader.fill_buf]
      rw [if_neg hcase]
    rw [hheadlen] at hres
    have hchunklen : (r.src.take BUF_SIZE).length = min BUF_SIZE r.src.length :=
      List.length_take _ _
    have hextraB : min (8 - (r.buf.length - r.buf_pos))
        (r.src.take BUF_SIZE).length ≤ BUF_SIZE := by
      rw [hchunklen]
      omega
    have hk : (r.buf.length - r.buf_pos) + min (8 - (r.buf.length - r.buf_pos))
          (r.src.take BUF_SIZE).length
        = min 8 (src0.length - r.consumedBytes) := by
      rw [hchunklen]
      omega
    have htail : (r.src.take BUF_SIZE).take (min (8 - (r.buf.length - r.buf_pos))
          (r.src.take BUF_SIZE).length)
        = r.src.take (min (8 - (r.buf.length - r.buf_pos))
            (r.src.take BUF_SIZE).length) := by
      rw [List.take_take]
      congr 1
      omega
    rw [hres]
    refine ⟨?_, rfl, rfl, ?_, ?_, ?_, ?_, ?_⟩
    · show beBytesToNat (r.buf.drop r.buf_pos ++ _ ++ List.replicate _ 0) = _
      have hup : r.buf.drop r.buf_pos ++ (r.src.take BUF_SIZE).take
            (min (8 - (r.buf.length - r.buf_pos)) (r.src.take BUF_SIZE).length)
          = (src0.drop r.consumedBytes).take ((r.buf.length - r.buf_pos) +
              min (8 - (r.buf.length - r.buf_pos)) (r.src.take BUF_SIZE).length) := by
        rw [htail, hbd, hsrcrem, List.take_add]
      have e4 : (src0.drop r.consumedBytes).take ((r.buf.length - r.buf_pos) +
            min (8 - (r.buf.length - r.buf_pos)) (r.src.take BUF_SIZE).length)
          = (src0.drop r.consumedBytes).take 8 := by
        rcases Nat.lt_or_ge (src0.length - r.consumedBytes) 8 with hlt | hge
        · rw [List.take_of_length_le (by rw [List.length_drop]; omega),
            List.take_of_length_le (by rw [List.length_drop]; omega)]
        · rw [hk]
          congr 1
          omega
      rw [hup, e4]
      have hcount : 8 - (r.buf.length - r.buf_pos) -
            min (8 - (r.buf.length - r.buf_pos)) ((r.src.take BUF_SIZE).length)
          = 8 - min 8 (src0.length - r.consumedBytes) := by
        rw [← hk]
        omega
      rw [hcount]
    · show r.bytes_read + (r.src.take BUF_SIZE).length -
          ((r.src.take BUF_SIZE).length - min (8 - (r.buf.length - r.buf_pos))
            (r.src.take BUF_SIZE).length) = _
      rw [← hk]
      rw [hchunklen]
      omega
    · show min (8 - (r.buf.length - r.buf_pos)) (r.src.take BUF_SIZE).length ≤
        (r.src.take BUF_SIZE).length
      omega
    · show r.src.drop BUF_SIZE =
        src0.drop (r.bytes_read + (r.src.take BUF_SIZE).length)
      rw [hchunklen]
      conv_lhs => rw [hsrc]
      rw [List.drop_drop]
      rcases Nat.lt_or_ge r.src.length BUF_SIZE with hlt | hge
      · rw [List.drop_eq_nil_of_le (by omega), List.drop_eq_nil_of_le (by omega)]
      · congr 1
        omega
    · show (r.src.take BUF_SIZE).drop (min (8 - (r.buf.length - r.buf_pos))
            (r.src.take BUF_SIZE).length) ++ r.src.drop BUF_SIZE =
        src0.drop (r.bytes_read + (r.src.take BUF_SIZE).length -
          ((r.src.take BUF_SIZE).length -
            min (8 - (r.buf.length - r.buf_pos)) (r.src.take BUF_SIZE).length))
      have e5 : (r.src.take BUF_SIZE).drop (min (8 - (r.buf.length - r.buf_pos))
            (r.src.take BUF_SIZE).length) ++ r.src.drop BUF_SIZE
          = r.src.drop (min (8 - (r.buf.length - r.buf_pos))
              (r.src.take BUF_SIZE).length) := by
        rw [List.drop_take]
        conv_rhs => rw [← List.take_append_drop
          (BUF_SIZE - min (8 - (r.buf.length - r.buf_pos))
            (r.src.take BUF_SIZE).length)
          (r.src.drop (min (8 - (r.buf.length - r.buf_pos))
            (r.src.take BUF_SIZE).length))]
        congr 1
        rw [List.drop_drop]
        congr 1
        omega
      rw [e5]
      conv_lhs => rw [hsrc]
      rw [List.drop_drop, hchunklen]
      congr 1
      have hd : (List.take BUF_SIZE (List.drop r.bytes_read src0)).length
          = BUF_SIZE ⊓ r.src.length := by
        rw [List.length_take, List.length_drop, ← hsrclen]
      omega
    · show r.bytes_read + (r.src.take BUF_SIZE).length ≤ src0.length
      rw [hchunklen]
      omega

/-- Decomposition of a word whose low `k` bits are zero. -/
theorem decomp_low_zero {d k : Nat} (hlt : d < U64) (hk : k ≤ 64)
    (hz : d % 2 ^ k = 0) : d = d >>> k * 2 ^ k ∧ d >>> k < 2 ^ (64 - k) := by
  constructor
  · rw [Nat.shiftRight_eq_div_pow,
      Nat.div_mul_cancel (Nat.dvd_of_mod_eq_zero hz)]
  · rw [Nat.shiftRight_eq_div_pow]
    apply Nat.div_lt_of_lt_mul
    calc d < U64 := hlt
      _ = 2 ^ k * 2 ^ (64 - k) := by
        unfold U64
        rw [← pow_add]
        congr 1
        omega

/-- Shifting the data word left by `bits` drops the first `bits` bits of its
bit list. -/
theorem natToBits_shift_left_take {d : Nat} (bits A : Nat) (hd : d < U64)
    (hbA : bits ≤ A) (hA : A ≤ 64) :
    (natToBits 64 (shift_left d bits)).take (A - bits) =
      ((natToBits 64 d).take A).drop bits := by
  have hb : bits ≤ 64 := le_trans hbA hA
  rw [natToBits_take d hA, natToBits_drop (d >>> (64 - A)) hbA,
    shift_left_mod d hb,
    natToBits_take _ (by omega)]
  apply natToBits_congr
  intro i hi
  have e1 : (d % 2 ^ (64 - bits) * 2 ^ bits) >>> (64 - (A - bits))
      = d % 2 ^ (64 - bits) / 2 ^ (64 - A) := by
    rw [Nat.shiftRight_eq_div_pow,
      show (64 : Nat) - (A - bits) = bits + (64 - A) by omega, pow_add,
      ← Nat.div_div_eq_div_mul, Nat.mul_div_cancel _
        (Nat.pos_pow_of_pos _ (by norm_num))]
  rw [e1]
  have e2 : d % 2 ^ (64 - bits) / 2 ^ (64 - A)
      = d / 2 ^ (64 - A) % 2 ^ (A - bits) := by
    rw [Nat.div_mod_eq_mod_mul_div,
      show (2 : Nat) ^ (64 - A) * 2 ^ (A - bits) = 2 ^ (64 - bits) by
        rw [← pow_add]; congr 1; omega]
  rw [e2, Nat.testBit_mod_two_pow, Nat.shiftRight_eq_div_pow]
  simp [hi]

/-- A run of zero bytes contributes a run of `false` bits. -/
theorem bytesToBits_replicate_zero (n : Nat) :
    bytesToBits (List.replicate n 0) = List.replicate (8 * n) false := by
  induction n with
  | zero => rfl
  | succ n ih =>
    rw [List.replicate_succ, bytesToBits_cons, ih, natToBits_zero,
      replicate_append_replicate]
    congr 1
    ring

theorem bitsToNat_padTake_of_prefix {l : List Bool} {z n : Nat}
    (h : n ≤ l.length + z) :
    bitsToNat (padTake l n) = bitsToNat ((l ++ List.replicate z false).take n) := by
  rw [take_append_replicate l (by omega)]

/-- The `ReaderOk` invariant holds for a fresh reader. -/
theorem readerOk_new (src0 : List Nat) (hb : ∀ b ∈ src0, b < 256) :
    ReaderOk src0 0 (BitReader.new src0) := by
  refine ⟨hb, ?_, ?_, ?_, ?_, ?_, ?_, ?_, ⟨0, ?_, ?_⟩, ⟨0, ?_⟩⟩ <;>
    simp [BitReader.new, BitReader.consumedBytes, U64, natToBits, bytesToBits]


theorem drop_append_len {l1 l2 : List Bool} {n : Nat} (h : l1.length = n)
    (i : Nat) : (l1 ++ l2).drop (n + i) = l2.drop i := by
  subst h
  exact List.drop_append i

theorem take_append_len {l1 l2 : List Bool} {n : Nat} (h : l1.length = n)
    (i : Nat) : (l1 ++ l2).take (n + i) = l1 ++ l2.take i := by
  subst h
  exact List.take_append i

/-- The central `BitReader::read_bits` lemma: under `ReaderOk`, reading
`bits ≤ 64` bits returns the value of the next `bits` bits of the byte
stream (zero padded past end of stream) and re-establishes the invariant. -/
theorem read_bits_ok {src0 : List Nat} {D : Nat} {r : BitReader}
    (h : ReaderOk src0 D r) {bits : Nat} (hb : bits ≤ 64) :
    (r.read_bits bits).1 =
      bitsToNat (padTake ((bytesToBits src0).drop D) bits) ∧
    ReaderOk src0 (D + bits) (r.read_bits bits).2 := by
  obtain ⟨z, hcontent⟩ := h.content
  obtain ⟨p, hpD, hpC⟩ := h.ledger
  have hA64 := h.avail_le
  have hdlt := h.data_lt
  have hdlt2 : r.data < 2 ^ 64 := hdlt
  obtain ⟨hdec, hslt⟩ := decomp_low_zero hdlt (by omega) h.low_zero
  have hlenc := congrArg List.length hcontent
  rw [List.length_append, List.length_take, natToBits_length,
    List.length_append, bytesToBits_length, List.length_drop,
    List.length_drop, bytesToBits_length, List.length_replicate] at hlenc
  have htakeAlen : ((natToBits 64 r.data).take r.bits_avail).length
      = r.bits_avail := by
    rw [List.length_take, natToBits_length]
    omega
  simp only [BitReader.read_bits]
  by_cases hfast : bits ≤ r.bits_avail
  · rw [if_pos hfast]
    have h2 : ((bytesToBits src0).drop D ++ List.replicate z false).take bits
        = (natToBits 64 r.data).take bits := by
      rw [← hcontent, List.take_append_of_le_length (by rw [htakeAlen]; omega),
        List.take_take, min_eq_left hfast]
    have h3 : padTake ((bytesToBits src0).drop D) bits
        = (natToBits 64 r.data).take bits := by
      rw [← @take_append_replicate bits z ((bytesToBits src0).drop D)
        (by rw [List.length_drop, bytesToBits_length]; omega), h2]
    constructor
    · show shift_right r.data (64 - bits) = _
      rw [shift_right_small _ hdlt, h3,
        bitsToNat_take_natToBits r.data hb hdlt2]
    · refine ⟨h.src_bytes, ?_, ?_, ?_, h.pos_le, h.src_suffix, h.unread_eq,
        h.read_le, ⟨p, ?_, ?_⟩, ?_⟩
      · show shift_left r.data bits < U64
        rw [shift_left_mod r.data hb]
        calc r.data % 2 ^ (64 - bits) * 2 ^ bits
            < 2 ^ (64 - bits) * 2 ^ bits :=
              mul_lt_mul_of_pos_right
                (Nat.mod_lt _ (Nat.pos_pow_of_pos _ (by norm_num)))
                (Nat.pos_pow_of_pos _ (by norm_num))
          _ = U64 := by unfold U64; rw [← pow_add]; congr 1; omega
      · show r.bits_avail - bits ≤ 64
        omega
      · show shift_left r.data bits % 2 ^ (64 - (r.bits_avail - bits)) = 0
        rw [shift_left_mod r.data hb]
        have e1 : r.data % 2 ^ (64 - bits)
            = r.data >>> (64 - r.bits_avail) % 2 ^ (r.bits_avail - bits)
              * 2 ^ (64 - r.bits_avail) := by
          conv_lhs => rw [hdec]
          rw [show (2 : Nat) ^ (64 - bits) = 2 ^ (r.bits_avail - bits)
              * 2 ^ (64 - r.bits_avail) by rw [← pow_add]; congr 1; omega,
            Nat.mul_mod_mul_right]
        rw [e1, Nat.mul_assoc,
          show (2 : Nat) ^ (64 - r.bits_avail) * 2 ^ bits
            = 2 ^ (64 - (r.bits_avail - bits)) by rw [← pow_add]; congr 1; omega,
          Nat.mul_mod_left]
      · show D + bits + (r.bits_avail - bits) = 64 * p
        omega
      · show r.consumedBytes = min src0.length (8 * p)
        exact hpC
      · refine ⟨z - (bits - ((bytesToBits src0).drop D).length), ?_⟩
        show (natToBits 64 (shift_left r.data bits)).take (r.bits_avail - bits)
            ++ bytesToBits (src0.drop r.consumedBytes) = _
        rw [natToBits_shift_left_take bits r.bits_avail hdlt hfast hA64,
          ← List.drop_append_of_le_length (by rw [htakeAlen]; omega), hcontent,
          drop_append_replicate, List.drop_drop]
  · rw [if_neg hfast]
    have hnu := next_u64_ok h.pos_le h.src_suffix h.unread_eq h.read_le
    obtain ⟨hX, hd1, hA1, hC1, hpos1, hsrc1, hunread1, hread1⟩ := hnu
    have hCN : r.consumedBytes ≤ src0.length := by omega
    have hremlen : (src0.drop r.consumedBytes).length
        = src0.length - r.consumedBytes := List.length_drop _ _
    set k := min 8 (src0.length - r.consumedBytes) with hkdef
    have hk8 : k ≤ 8 := by omega
    have hXbytes : ∀ b ∈ (src0.drop r.consumedBytes).take 8 ++
        List.replicate (8 - k) 0, b < 256 := by
      intro b hb2
      rcases List.mem_append.mp hb2 with h1 | h1
      · exact h.src_bytes b (List.mem_of_mem_drop (List.mem_of_mem_take h1))
      · rw [List.eq_of_mem_replicate h1]
        norm_num
    have hXlen : ((src0.drop r.consumedBytes).take 8 ++
        List.replicate (8 - k) 0).length = 8 := by
      rw [List.length_append, List.length_take, List.length_replicate,
        hremlen]
      omega
    have hXlt : r.next_u64.1 < 2 ^ 64 := by
      rw [hX]
      have := beBytesToNat_lt _ hXbytes
      rw [hXlen] at this
      exact this
    have hXbits : natToBits 64 r.next_u64.1
        = bytesToBits ((src0.drop r.consumedBytes).take 8) ++
          List.replicate (8 * (8 - k)) false := by
      rw [hX]
      have e0 := natToBits_beBytesToNat _ hXbytes
      rw [hXlen] at e0
      rw [show (64 : Nat) = 8 * 8 by norm_num, e0, bytesToBits_append,
        bytesToBits_replicate_zero]
    have htake8 : (src0.drop r.consumedBytes).take k
        = (src0.drop r.consumedBytes).take 8 := by
      rcases Nat.lt_or_ge (src0.length - r.consumedBytes) 8 with hlt | hge
      · rw [List.take_of_length_le (by omega), List.take_of_length_le (by omega)]
      · congr 1
        omega
    have hXrem : natToBits 64 r.next_u64.1 ++
          bytesToBits ((src0.drop r.consumedBytes).drop k)
        = bytesToBits (src0.drop r.consumedBytes) ++
          List.replicate (8 * (8 - k)) false := by
      rw [hXbits]
      rcases Nat.lt_or_ge (src0.length - r.consumedBytes) 8 with hlt | hge
      · have hdnil : (src0.drop r.consumedBytes).drop k = [] :=
          List.drop_eq_nil_of_le (by rw [hremlen]; omega)
        rw [hdnil, bytesToBits_nil, List.append_nil,
          List.take_of_length_le
            (show (src0.drop r.consumedBytes).length ≤ 8 from by
              rw [hremlen]; omega)]
      · have hk8e : k = 8 := by omega
        rw [hk8e, Nat.sub_self, Nat.mul_zero, List.replicate_zero,
          List.append_nil, List.append_nil, ← bytesToBits_append,
          List.take_append_drop]
    have hslt2 : r.data >>> (64 - r.bits_avail) < 2 ^ r.bits_avail := by
      have h1 := hslt
      rw [show 64 - (64 - r.bits_avail) = r.bits_avail by omega] at h1
      exact h1
    have hres1 : r.data >>> (64 - bits)
        = r.data >>> (64 - r.bits_avail) * 2 ^ (bits - r.bits_avail) := by
      conv_lhs => rw [hdec]
      rw [show (2 : Nat) ^ (64 - r.bits_avail)
          = 2 ^ (bits - r.bits_avail) * 2 ^ (64 - bits) by
            rw [← pow_add]; congr 1; omega,
        ← Nat.mul_assoc, Nat.shiftRight_eq_div_pow,
        Nat.mul_div_cancel _ (Nat.pos_pow_of_pos _ (by norm_num))]
    have hXtop_lt : r.next_u64.1 >>> (64 - (bits - r.bits_avail))
        < 2 ^ (bits - r.bits_avail) := by
      rw [Nat.shiftRight_eq_div_pow]
      apply Nat.div_lt_of_lt_mul
      calc r.next_u64.1 < 2 ^ 64 := hXlt
        _ = 2 ^ (64 - (bits - r.bits_avail)) * 2 ^ (bits - r.bits_avail) := by
          rw [← pow_add]; congr 1; omega
    have hlor : shift_right r.data (64 - bits) |||
          shift_right r.next_u64.1 (64 - (bits - r.bits_avail))
        = r.data >>> (64 - r.bits_avail) * 2 ^ (bits - r.bits_avail)
          + r.next_u64.1 >>> (64 - (bits - r.bits_avail)) := by
      rw [shift_right_small _ hdlt, shift_right_small _ hXlt, hres1]
      exact lor_eq_add (Nat.mul_mod_left _ _) hXtop_lt
    have hQ : ((bytesToBits (src0.drop r.consumedBytes)) ++
          List.replicate bits false).take (bits - r.bits_avail)
        = (natToBits 64 r.next_u64.1).take (bits - r.bits_avail) := by
      rw [hXbits]
      rcases Nat.lt_or_ge (src0.length - r.consumedBytes) 8 with hlt | hge
      · have ht8 : (src0.drop r.consumedBytes).take 8 = src0.drop r.consumedBytes :=
          List.take_of_length_le (by rw [hremlen]; omega)
        rw [ht8,
          take_append_replicate (bytesToBits (src0.drop r.consumedBytes)) (by
            rw [bytesToBits_length, List.length_drop]
            omega),
          take_append_replicate (bytesToBits (src0.drop r.consumedBytes)) (by
            rw [bytesToBits_length, List.length_drop]
            omega)]
      · have htk : bytesToBits ((src0.drop r.consumedBytes).take 8)
            = (bytesToBits (src0.drop r.consumedBytes)).take 64 := by
          rw [bytesToBits_take]
        rw [htk, List.take_append_of_le_length (by
            rw [bytesToBits_length, List.length_drop]
            omega),
          List.take_append_of_le_length (by
            rw [List.length_take, bytesToBits_length, List.length_drop]
            omega),
          List.take_take]
        congr 1
        omega
    have hvalue : bitsToNat (padTake ((bytesToBits src0).drop D) bits)
        = r.data >>> (64 - r.bits_avail) * 2 ^ (bits - r.bits_avail)
          + r.next_u64.1 >>> (64 - (bits - r.bits_avail)) := by
      have hp1 : padTake ((bytesToBits src0).drop D) bits
          = (((bytesToBits src0).drop D ++ List.replicate z false) ++
              List.replicate bits false).take bits := by
        rw [List.append_assoc, replicate_append_replicate,
          take_append_replicate _ (by omega)]
      rw [hp1, ← hcontent, List.append_assoc]
      have hp2 : (((natToBits 64 r.data).take r.bits_avail) ++
            (bytesToBits (src0.drop r.consumedBytes) ++
              List.replicate bits false)).take bits
          = ((natToBits 64 r.data).take r.bits_avail) ++
            ((bytesToBits (src0.drop r.consumedBytes) ++
              List.replicate bits false)).take (bits - r.bits_avail) := by
        conv_lhs => rw [show bits = r.bits_avail + (bits - r.bits_avail) by omega]
        rw [take_append_len htakeAlen,
          show r.bits_avail + (bits - r.bits_avail) = bits by omega]
      rw [hp2, hQ, bitsToNat_append,
        bitsToNat_take_natToBits r.data (by omega) hdlt2,
        bitsToNat_take_natToBits r.next_u64.1 (by omega) hXlt,
        List.length_take, natToBits_length,
        show min (bits - r.bits_avail) 64 = bits - r.bits_avail by omega]
    constructor
    · show shift_right r.data (64 - bits) |||
          shift_right r.next_u64.1 (64 - (bits - r.bits_avail)) = _
      rw [hlor, hvalue]
    · have hXlt2 : r.next_u64.1 < U64 := hXlt
      have hextra64 : bits - r.bits_avail ≤ 64 := by omega
      refine ⟨h.src_bytes, ?_, ?_, ?_, hpos1, hsrc1, ?_, hread1,
        ⟨p + 1, ?_, ?_⟩, ?_⟩
      · show shift_left r.next_u64.1 (bits - r.bits_avail) < U64
        rw [shift_left_mod _ hextra64]
        calc r.next_u64.1 % 2 ^ (64 - (bits - r.bits_avail))
              * 2 ^ (bits - r.bits_avail)
            < 2 ^ (64 - (bits - r.bits_avail)) * 2 ^ (bits - r.bits_avail) :=
              mul_lt_mul_of_pos_right
                (Nat.mod_lt _ (Nat.pos_pow_of_pos _ (by norm_num)))
                (Nat.pos_pow_of_pos _ (by norm_num))
          _ = U64 := by unfold U64; rw [← pow_add]; congr 1; omega
      · show 64 - (bits - r.bits_avail) ≤ 64
        omega
      · show shift_left r.next_u64.1 (bits - r.bits_avail) %
            2 ^ (64 - (64 - (bits - r.bits_avail))) = 0
        rw [shift_left_mod _ hextra64,
          show 64 - (64 - (bits - r.bits_avail)) = bits - r.bits_avail by omega,
          Nat.mul_mod_left]
      · show r.next_u64.2.buf.drop r.next_u64.2.buf_pos ++ r.next_u64.2.src =
          src0.drop r.next_u64.2.consumedBytes
        exact hunread1
      · show D + bits + (64 - (bits - r.bits_avail)) = 64 * (p + 1)
        omega
      · show r.next_u64.2.consumedBytes = min src0.length (8 * (p + 1))
        rw [hC1, hpC]
        omega
      · refine ⟨z - (r.bits_avail + (bits - r.bits_avail) -
            ((bytesToBits src0).drop D).length) +
            (8 * (8 - k) - (bits - r.bits_avail -
              (bytesToBits (src0.drop r.consumedBytes)).length)), ?_⟩
        show (natToBits 64 (shift_left r.next_u64.1 (bits - r.bits_avail))).take
              (64 - (bits - r.bits_avail)) ++
            bytesToBits (src0.drop r.next_u64.2.consumedBytes) =
          (bytesToBits src0).drop (D + bits) ++ List.replicate _ false
        have hst1 : (natToBits 64 (shift_left r.next_u64.1
              (bits - r.bits_avail))).take (64 - (bits - r.bits_avail))
            = (natToBits 64 r.next_u64.1).drop (bits - r.bits_avail) := by
          have h0 := @natToBits_shift_left_take r.next_u64.1
            (bits - r.bits_avail) 64 hXlt2 (by omega) (le_refl 64)
          have ht64 : (natToBits 64 r.next_u64.1).take 64
              = natToBits 64 r.next_u64.1 :=
            List.take_of_length_le (by rw [natToBits_length])
          rw [ht64] at h0
          exact h0
        have hmerge : ((natToBits 64 r.next_u64.1) ++
              bytesToBits ((src0.drop r.consumedBytes).drop k)).drop
                (bits - r.bits_avail)
            = (natToBits 64 r.next_u64.1).drop (bits - r.bits_avail) ++
              bytesToBits ((src0.drop r.consumedBytes).drop k) :=
          List.drop_append_of_le_length (by rw [natToBits_length]; omega)
        rw [hst1, hC1, ← List.drop_drop (k) (r.consumedBytes) src0,
          ← hmerge, hXrem, drop_append_replicate]
        have hdropA := congrArg
          (List.drop (r.bits_avail + (bits - r.bits_avail))) hcontent
        rw [drop_append_len htakeAlen (bits - r.bits_avail),
          drop_append_replicate, List.drop_drop,
          show D + (r.bits_avail + (bits - r.bits_avail)) = D + bits by omega]
          at hdropA
        rw [hdropA, List.append_assoc, replicate_append_replicate]

/-! ## The write/read round trip (bit stream level) -/

theorem pairsToBits_nil : pairsToBits [] = [] := rfl

theorem pairsToBits_cons (p : Nat × Nat) (ps : List (Nat × Nat)) :
    pairsToBits (p :: ps) = natToBits p.2 p.1 ++ pairsToBits ps := by
  simp [pairsToBits]

theorem pairsToBits_length (ps : List (Nat × Nat)) :
    (pairsToBits ps).length = (ps.map Prod.snd).sum := by
  induction ps with
  | nil => rfl
  | cons p ps ih =>
    rw [pairsToBits_cons, List.length_append, natToBits_length, ih,
      List.map_cons, List.sum_cons]

/-- `writeAll` preserves the writer invariant and appends exactly the bit
representations of its pairs to the abstract stream. -/
theorem writeAll_spec : ∀ (ps : List (Nat × Nat)) (w : BitWriter),
    WriterInv w → (∀ p ∈ ps, p.2 ≤ 64 ∧ p.1 < 2 ^ p.2) →
    WriterInv (writeAll w ps) ∧
      wbits (writeAll w ps) = wbits w ++ pairsToBits ps
  | [], w, hw, _ => by
    refine ⟨hw, ?_⟩
    rw [pairsToBits_nil, List.append_nil]
    rfl
  | p :: ps, w, hw, hps => by
    obtain ⟨h1, h2⟩ :=
      write_bits_spec hw (hps p (by simp)).1 (hps p (by simp)).2
    obtain ⟨h3, h4⟩ :=
      writeAll_spec ps (w.write_bits p.1 p.2) h1
        (fun q hq => hps q (by simp [hq]))
    refine ⟨h3, ?_⟩
    show wbits (writeAll (w.write_bits p.1 p.2) ps) = _
    rw [h4, h2, pairsToBits_cons, List.append_assoc]

/-- `readAll` under the reader invariant returns exactly the stream values at
the current position and advances the invariant by the sum of the widths. -/
theorem readAll_ok : ∀ (bs : List Nat) {src0 : List Nat} {D : Nat}
    {r : BitReader}, ReaderOk src0 D r → (∀ b ∈ bs, b ≤ 64) →
    (readAll r bs).1 = streamVals (bytesToBits src0) D bs ∧
      ReaderOk src0 (D + bs.sum) (readAll r bs).2
  | [], src0, D, r, h, _ => by
    refine ⟨rfl, ?_⟩
    simpa using h
  | b :: bs, src0, D, r, h, hbs => by
    obtain ⟨h1, h2⟩ := read_bits_ok h (hbs b (by simp))
    obtain ⟨h3, h4⟩ :=
      readAll_ok bs h2 (fun x hx => hbs x (by simp [hx]))
    constructor
    · show (r.read_bits b).1 :: (readAll (r.read_bits b).2 bs).1 = _
      rw [h1, h3]
      rfl
    · show ReaderOk src0 (D + (b :: bs).sum) (readAll (r.read_bits b).2 bs).2
      have he : D + (b :: bs).sum = D + b + bs.sum := by
        rw [List.sum_cons]
        omega
      rw [he]
      exact h4

/-- Reading back widths from a stream that starts with the corresponding
written values (after an arbitrary prefix, with arbitrary zero padding)
recovers exactly the values. -/
theorem streamVals_pairs : ∀ (ps : List (Nat × Nat)) (pre : List Bool)
    (z : Nat), (∀ p ∈ ps, p.1 < 2 ^ p.2) →
    streamVals (pre ++ pairsToBits ps ++ List.replicate z false) pre.length
      (ps.map Prod.snd) = ps.map Prod.fst
  | [], _, _, _ => rfl
  | p :: ps, pre, z, hps => by
    rw [List.map_cons, List.map_cons]
    show bitsToNat (padTake ((pre ++ pairsToBits (p :: ps) ++
          List.replicate z false).drop pre.length) p.2) ::
        streamVals (pre ++ pairsToBits (p :: ps) ++ List.replicate z false)
          (pre.length + p.2) (ps.map Prod.snd)
      = p.1 :: ps.map Prod.fst
    have hdrop : (pre ++ pairsToBits (p :: ps) ++
          List.replicate z false).drop pre.length
        = pairsToBits (p :: ps) ++ List.replicate z false := by
      rw [List.append_assoc]
      have := @drop_append_len pre
        (pairsToBits (p :: ps) ++ List.replicate z false) pre.length rfl 0
      rw [Nat.add_zero] at this
      rw [this, List.drop_zero]
    have hhead : bitsToNat (padTake ((pre ++ pairsToBits (p :: ps) ++
          List.replicate z false).drop pre.length) p.2) = p.1 := by
      rw [hdrop, pairsToBits_cons, List.append_assoc]
      unfold padTake
      have hlen2 : p.2 ≤ (natToBits p.2 p.1 ++
          (pairsToBits ps ++ List.replicate z false)).length := by
        rw [List.length_append, natToBits_length]
        omega
      rw [List.take_append_of_le_length (by rw [natToBits_length]),
        List.take_of_length_le (by rw [natToBits_length]),
        Nat.sub_eq_zero_of_le hlen2, List.replicate_zero, List.append_nil,
        bitsToNat_natToBits, Nat.mod_eq_of_lt (hps p (by simp))]
    have htail : streamVals (pre ++ pairsToBits (p :: ps) ++
          List.replicate z false) (pre.length + p.2) (ps.map Prod.snd)
        = ps.map Prod.fst := by
      have hre : pre ++ pairsToBits (p :: ps) ++ List.replicate z false
          = (pre ++ natToBits p.2 p.1) ++ pairsToBits ps ++
            List.replicate z false := by
        rw [pairsToBits_cons]
        simp [List.append_assoc]
      have hlen3 : pre.length + p.2 = (pre ++ natToBits p.2 p.1).length := by
        rw [List.length_append, natToBits_length]
      rw [hre, hlen3,
        streamVals_pairs ps (pre ++ natToBits p.2 p.1) z
          (fun q hq => hps q (by simp [hq]))]
    rw [hhead, htail]

/-- **C3.** For every sequence of `(value, width)` pairs with widths in
`[0, 64]` and values below `2 ^ width`, writing the values with
`BitWriter::write_bits` and calling `finish`, then reading the produced
bytes back with `BitReader::read_bits` using the same widths in the same
order, returns exactly the written values in order, and `BitReader::finish`
then reports exactly `⌈(Σ widths) / 8⌉` bytes consumed. -/
theorem bit_io_round_trip (ps : List (Nat × Nat))
    (hps : ∀ p ∈ ps, p.2 ≤ 64 ∧ p.1 < 2 ^ p.2) :
    (readAll (BitReader.new ((writeAll BitWriter.new ps).finish.1).out)
        (ps.map Prod.snd)).1 = ps.map Prod.fst ∧
    ((readAll (BitReader.new ((writeAll BitWriter.new ps).finish.1).out)
        (ps.map Prod.snd)).2.finish).1 = ((ps.map Prod.snd).sum + 7) / 8 := by
  obtain ⟨hw, hwb⟩ := writeAll_spec ps BitWriter.new writerInv_new hps
  obtain ⟨pad, hpad, hout, hlen, hcnt, hbytes⟩ := finish_spec hw
  rw [hwb, wbits_new, List.nil_append] at hout
  rw [hwb, wbits_new, List.nil_append, pairsToBits_length] at hlen
  have h0 := readerOk_new ((writeAll BitWriter.new ps).finish.1).out hbytes
  obtain ⟨hvals, hok⟩ := readAll_ok (ps.map Prod.snd) h0
    (fun b hb => by
      obtain ⟨p, hp, hpb⟩ := List.mem_map.mp hb
      exact hpb ▸ (hps p hp).1)
  constructor
  · rw [hvals, hout]
    have h1 := streamVals_pairs ps [] pad (fun p hp => (hps p hp).2)
    rw [List.nil_append, List.length_nil] at h1
    exact h1
  · obtain ⟨q, hq1, hq2⟩ := hok.ledger
    have hA := hok.avail_le
    show (readAll (BitReader.new
        ((writeAll BitWriter.new ps).finish.1).out)
        (ps.map Prod.snd)).2.consumedBytes = _
    rw [hq2]
    have hlr : (wbits ((writeAll BitWriter.new ps).finish.1)).length
        = (wbits ((writeAll BitWriter.new ps).finish.1)).length := rfl
    omega

theorem bit_io_round_trip_witness :
    (∀ p ∈ [((5 : Nat), (3 : Nat)), (9, 4), (1, 1)],
        p.2 ≤ 64 ∧ p.1 < 2 ^ p.2) ∧
    ((readAll (BitReader.new ((writeAll BitWriter.new
          [((5 : Nat), (3 : Nat)), (9, 4), (1, 1)]).finish.1).out)
        ([((5 : Nat), (3 : Nat)), (9, 4), (1, 1)].map Prod.snd)).1 =
      [((5 : Nat), (3 : Nat)), (9, 4), (1, 1)].map Prod.fst ∧
    ((readAll (BitReader.new ((writeAll BitWriter.new
          [((5 : Nat), (3 : Nat)), (9, 4), (1, 1)]).finish.1).out)
        ([((5 : Nat), (3 : Nat)), (9, 4), (1, 1)].map Prod.snd)).2.finish).1 =
      (([((5 : Nat), (3 : Nat)), (9, 4), (1, 1)].map Prod.snd).sum + 7) / 8) :=
  ⟨by decide, bit_io_round_trip _ (by decide)⟩

/-! ## The data-word invariants of the two bit streams -/

/-- **C8** (counterexample part): the reader data-word invariant is *not*
restored by every `fill_data`.  Reading 16 `0xff` bytes: after `fill_data`,
`consume 4`, `fill_data`, the reader has `bits_avail = 60` but the low
4 bits of `data` are `0xf`, not zero — the fast path of `next_bytes`
returns 8 look-ahead bytes even when `num_bytes = 0`, and `fill_data`
ORs them below the meaningful region. -/
theorem c8_fill_data_violation :
    ((((BitReader.new (List.replicate 16 255)).fill_data).consume
        4).fill_data).bits_avail = 60 ∧
    ((((BitReader.new (List.replicate 16 255)).fill_data).consume
        4).fill_data).data % 2 ^ (64 - 60) ≠ 0 := by decide

/-- **C8** (amended): the writer's data word keeps its low `bits_avail`
bits zero after every `write_bits` of an in-range value, and the reader's
data word keeps its low `64 - bits_avail` bits zero after every
`read_bits` and every in-range `consume`.  The analogous statement for
`fill_data` is false (`c8_fill_data_violation`). -/
theorem c8_data_word_invariants {w : BitWriter} {v bits : Nat}
    (hw : WriterInv w) (hb : bits ≤ 64) (hv : v < 2 ^ bits)
    {src0 : List Nat} {D : Nat} {r : BitReader} (hr : ReaderOk src0 D r)
    {rbits cbits : Nat} (hrb : rbits ≤ 64) (hcb : cbits ≤ r.bits_avail) :
    (w.write_bits v bits).data % 2 ^ (w.write_bits v bits).bits_avail = 0 ∧
    (r.read_bits rbits).2.data %
      2 ^ (64 - (r.read_bits rbits).2.bits_avail) = 0 ∧
    (r.consume cbits).data % 2 ^ (64 - (r.consume cbits).bits_avail) = 0 := by
  refine ⟨(write_bits_spec hw hb hv).1.low_zero,
    (read_bits_ok hr hrb).2.low_zero, ?_⟩
  show shift_left r.data cbits % 2 ^ (64 - (r.bits_avail - cbits)) = 0
  have hA := hr.avail_le
  have hlz := hr.low_zero
  rw [shift_left_mod _ (by omega)]
  have h1 : (r.data % 2 ^ (64 - cbits)) % 2 ^ (64 - r.bits_avail) = 0 := by
    rw [Nat.mod_mod_of_dvd _ (pow_dvd_pow 2 (by omega))]
    exact hlz
  obtain ⟨c, hc⟩ := Nat.dvd_of_mod_eq_zero h1
  rw [hc, show (64 : Nat) - (r.bits_avail - cbits)
      = (64 - r.bits_avail) + cbits by omega, pow_add,
    show 2 ^ (64 - r.bits_avail) * c * 2 ^ cbits
      = 2 ^ (64 - r.bits_avail) * 2 ^ cbits * c by ring,
    Nat.mul_mod_right]

theorem c8_data_word_invariants_witness :
    (3 : Nat) ≤ 64 ∧ (5 : Nat) < 2 ^ 3 ∧ (4 : Nat) ≤ 64 ∧
    (0 : Nat) ≤ (BitReader.new [255]).bits_avail ∧
    ((BitWriter.new.write_bits 5 3).data %
        2 ^ (BitWriter.new.write_bits 5 3).bits_avail = 0 ∧
      ((BitReader.new [255]).read_bits 4).2.data %
        2 ^ (64 - ((BitReader.new [255]).read_bits 4).2.bits_avail) = 0 ∧
      ((BitReader.new [255]).consume 0).data %
        2 ^ (64 - ((BitReader.new [255]).consume 0).bits_avail) = 0) :=
  ⟨by decide, by decide, by decide, by decide,
    c8_data_word_invariants writerInv_new (by decide) (by decide)
      (readerOk_new [255] (by decide)) (by decide) (by decide)⟩

/-- **C10.** `BitWriter::write_bits` does not mask its value argument —
after an 8-bit write, writing value `2` with width `1` leaves a different
data word than writing `2 mod 2^1` with width `1`, because the extra bit of
the value is OR-ed over previously written output — and under the
precondition that the value is below `2 ^ width`, the writer invariant
(written bits in the top `64 - bits_avail` positions, low `bits_avail` bits
zero) is preserved by every `write_bits`. -/
theorem write_bits_no_mask_and_invariant {w : BitWriter} {v bits : Nat}
    (hw : WriterInv w) (hb : bits ≤ 64) (hv : v < 2 ^ bits) :
    ((BitWriter.new.write_bits 0 8).write_bits 2 1).data ≠
      ((BitWriter.new.write_bits 0 8).write_bits (2 % 2 ^ 1) 1).data ∧
    WriterInv (w.write_bits v bits) :=
  ⟨by decide, (write_bits_spec hw hb hv).1⟩

theorem write_bits_no_mask_and_invariant_witness :
    (2 : Nat) ≤ 64 ∧ (3 : Nat) < 2 ^ 2 ∧
    (((BitWriter.new.write_bits 0 8).write_bits 2 1).data ≠
      ((BitWriter.new.write_bits 0 8).write_bits (2 % 2 ^ 1) 1).data ∧
    WriterInv (BitWriter.new.write_bits 3 2)) :=
  ⟨by decide, by decide,
    write_bits_no_mask_and_invariant writerInv_new (by decide) (by decide)⟩

/-! ## Deserialization of the coding-table header -/

theorem readSymbols_ok : ∀ (n : Nat) {src0 : List Nat} {D : Nat}
    {r : BitReader}, ReaderOk src0 D r →
    ReaderOk src0 (D + 16 * n) (readSymbols r n).2
  | 0, src0, D, r, h => by simpa [readSymbols] using h
  | n + 1, src0, D, r, h => by
    have h1 := (read_bits_ok h (show (16 : Nat) ≤ 64 by norm_num)).2
    have h2 := readSymbols_ok n h1
    show ReaderOk src0 (D + 16 * (n + 1))
      (readSymbols (r.read_bits 16).2 n).2
    have he : D + 16 * (n + 1) = D + 16 + 16 * n := by ring
    rw [he]
    exact h2

/-- The loop of `decode_coding_table` succeeds exactly on well-formed
headers: the operational loop over the `BitReader` agrees with the pure
header predicate on the byte stream. -/
theorem decTableLoop_ok : ∀ (fuel : Nat) {src0 : List Nat} {D cur : Nat}
    {r : BitReader} {lengths : List (List Nat)}, ReaderOk src0 D r →
    lengths.length = cur → 1 ≤ cur →
    ((∃ x, decTableLoop fuel r lengths = .ok x) ↔
      headerOk (bytesToBits src0) D cur fuel = true)
  | 0, src0, D, cur, r, lengths, h, hlen, hcur => by
    simp [decTableLoop, headerOk]
  | fuel + 1, src0, D, cur, r, lengths, h, hlen, hcur => by
    have hp := read_bits_ok h (show (32 : Nat) ≤ 64 by norm_num)
    have hp1 : (r.read_bits 32).1 = readPure (bytesToBits src0) D 32 := hp.1
    have hp2 := hp.2
    simp only [decTableLoop, headerOk, ← hp1]
    by_cases h0 : (r.read_bits 32).1 = 0
    · rw [if_pos h0, if_pos h0]
      simp
    · rw [if_neg h0, if_neg h0]
      by_cases hv : cur ≤ (r.read_bits 32).1 ∧ (r.read_bits 32).1 ≤ 32
      · rw [if_neg (by omega : ¬((r.read_bits 32).1 < lengths.length ∨
          32 < (r.read_bits 32).1)), if_pos hv]
        have hq := read_bits_ok hp2 (show (16 : Nat) ≤ 64 by norm_num)
        have hq1 : ((r.read_bits 32).2.read_bits 16).1 =
            readPure (bytesToBits src0) (D + 32) 16 := hq.1
        have hs := readSymbols_ok ((r.read_bits 32).2.read_bits 16).1 hq.2
        have hlen1 : ((lengths ++
            List.replicate ((r.read_bits 32).1 - lengths.length) []) ++
              [(readSymbols ((r.read_bits 32).2.read_bits 16).2
                ((r.read_bits 32).2.read_bits 16).1).1]).length
            = (r.read_bits 32).1 + 1 := by
          rw [List.length_append, List.length_append, List.length_replicate]
          simp
          omega
        have hIH := decTableLoop_ok fuel hs hlen1 (by omega)
        rw [← hq1]
        exact hIH
      · rw [if_pos (by omega : (r.read_bits 32).1 < lengths.length ∨
          32 < (r.read_bits 32).1), if_neg hv]
        simp

/-- **C7.** `PrefixCode::decode_coding_table` returns a decode error if and
only if the serialized header's length records are not strictly ascending
or some length record exceeds 32 (`PREFIX_CODE_MAX_BITS`); the byte source
behind the reader is in-memory and error-free, so no underlying read error
can occur, and in every other case the function returns `Ok` — the header
predicate places no constraint on the symbol values, so symbols that are
out of range, duplicated, or Kraft-violating are accepted. -/
theorem decode_coding_table_error_iff {src0 : List Nat} {D : Nat}
    {r : BitReader} (h : ReaderOk src0 D r) :
    decode_coding_table r = .error () ↔
      headerOk (bytesToBits src0) (D + 16) 1 33 = false := by
  have h1 := (read_bits_ok h (show (16 : Nat) ≤ 64 by norm_num)).2
  have h2 := decTableLoop_ok 33 h1
    (show ([[]] : List (List Nat)).length = 1 from rfl) (le_refl 1)
  have hdef : decode_coding_table r =
      match decTableLoop 33 (r.read_bits 16).2 [[]] with
      | .error e => .error e
      | .ok (lengths, r1) => .ok (⟨(r.read_bits 16).1, lengths⟩, r1) := rfl
  constructor
  · intro he
    cases hb : headerOk (bytesToBits src0) (D + 16) 1 33
    · rfl
    · exfalso
      obtain ⟨x, hx⟩ := h2.mpr hb
      obtain ⟨xl, xr⟩ := x
      rw [hdef, hx] at he
      simp at he
  · intro hb
    rw [hdef]
    rcases hd : decTableLoop 33 ((r.read_bits 16).2) [[]] with e | x
    · cases e
      rfl
    · exfalso
      have hT : headerOk (bytesToBits src0) (D + 16) 1 33 = true :=
      h2.mp ⟨x, hd⟩
      rw [hb] at hT
      cases hT

theorem decode_coding_table_error_iff_witness :
    (∀ b ∈ ([] : List Nat), b < 256) ∧
    (decode_coding_table (BitReader.new []) = .error () ↔
      headerOk (bytesToBits []) (0 + 16) 1 33 = false) :=
  ⟨by decide, decode_coding_table_error_iff (readerOk_new [] (by decide))⟩

/-! ## `StaticHuffman::build_from_weights` -/

theorem filter_range_single {p : Nat → Bool} : ∀ {n j : Nat}, j < n →
    (∀ i, i < n → (p i = true ↔ i = j)) →
    (List.range n).filter p = [j] := by
  intro n
  induction n with
  | zero => intro j hj; omega
  | succ n ih =>
    intro j hj hp
    rw [List.range_succ, List.filter_append]
    by_cases hjn : j = n
    · subst hjn
      have h1 : (List.range j).filter p = [] := by
        rw [List.filter_eq_nil_iff]
        intro a ha
        have han := List.mem_range.mp ha
        intro hpa
        have := (hp a (by omega)).mp hpa
        omega
      have h2 : p j = true := (hp j (by omega)).mpr rfl
      rw [h1, List.filter_cons, if_pos h2]
      rfl
    · have h1 : (List.range n).filter p = [j] :=
        ih (by omega) (fun i hi => hp i (by omega))
      have h2 : ¬p n = true := by
        intro hpn
        exact hjn ((hp n (by omega)).mp hpn).symm
      rw [h1, List.filter_cons, if_neg h2, List.filter_nil, List.append_nil]

/-- **C9.** When `StaticHuffman::build_from_weights` is given a weight
vector with exactly one non-zero entry, at index `j`, the resulting code
assigns symbol `j` a code length of exactly 1 and assigns no other symbol
any code: the bucket list is `[[], [j]]`, so the Kraft sum is `2⁻¹ = 1/2`. -/
theorem build_single_symbol {weights : List Nat} {j : Nat}
    (hj : j < weights.length)
    (hw : ∀ i, i < weights.length → (0 < weights.getD i 0 ↔ i = j)) :
    build_from_weights weights = some [[], [j]] := by
  have hfil : (List.range weights.length).filter
      (fun i => decide (0 < weights.getD i 0)) = [j] :=
    filter_range_single hj (fun i hi => by
      simp only [decide_eq_true_eq]
      exact hw i hi)
  unfold build_from_weights
  rw [hfil]
  rfl

theorem build_single_symbol_witness :
    (1 : Nat) < ([0, 5, 0] : List Nat).length ∧
    (∀ i, i < ([0, 5, 0] : List Nat).length →
      (0 < ([0, 5, 0] : List Nat).getD i 0 ↔ i = 1)) ∧
    build_from_weights [0, 5, 0] = some [[], [1]] :=
  ⟨by decide, by decide, build_single_symbol (by decide) (by decide)⟩

set_option maxRecDepth 100000 in
/-- **C1.** The codec round trip fails for the static codec on the empty
byte sequence: `StaticHuffmanEncoder::encode` computes the all-zero
frequency histogram and unconditionally calls
`StaticHuffman::build_from_weights`, whose `assert!(symbol_size > 0)`
fails (modelled as `none`) — the encoder panics before emitting any
output, so `decode(Static, encode(Static, B)) = B` does not hold for
`B = []`. -/
theorem static_encode_empty_asserts :
    frequencies [] = List.replicate 256 0 ∧
    build_from_weights (frequencies []) = none :=
  ⟨rfl, rfl⟩

/-- **C5.** Counterexample to the claimed bound: with exactly one non-zero
weight (`n = 1` non-zero symbols) the claim admits
`M = ceil(log2 1) = 0`, but `apply_max_length_limit(0)` on the resulting
single-symbol code `[[], [0]]` does not terminate normally: it evaluates
`max_length - 1` with `max_length = 0`, a `usize` underflow (a
debug-build panic; in release the wrapped value is used as an index into
`lengths` inside `adjust` and panics there). -/
theorem apply_max_length_limit_single_underflow :
    build_from_weights [5] = some [[], [0]] ∧
    apply_max_length_limit [[], [0]] 0 = none :=
  ⟨rfl, rfl⟩

/-! ## The multi-level prefix decoder -/

set_option maxRecDepth 100000 in
/-- **C4.** Counterexample to the claimed decoder correctness: the primary
table's secondary-table links are the `u16` sums
`num_symbols + code_table.len()`, which wrap for large `num_symbols`.  For
the Kraft-exact code with `num_symbols = 65535`, symbol `0` at length 1 and
symbols `1..=64` at length 7 (Kraft sum `2⁻¹ + 64·2⁻⁷ = 1`), the canonical
code of symbol `1` is `(64, 7)`; on a reader whose peek word is `2 ^ 63`
(that code word in the most-significant bits) the decoder finds the wrapped
link `(65535 + 64) mod 2¹⁶ = 63 < num_symbols` in the primary slot and
returns symbol `63`, not `1` (a debug build instead panics on the overflow
inside `generate_decoder`). -/
theorem prefix_decoder_link_overflow :
    (generate_encoder_table ⟨65535, [[], [0], [], [], [], [], [],
        List.range' 1 64]⟩).getD 1 (0, 0) = (64, 7) ∧
    ((2 : Nat) ^ 63) >>> (64 - 7) = 64 ∧
    (BitReader.new [128, 0, 0, 0, 0, 0, 0, 0]).fill_data.peek = 2 ^ 63 ∧
    Option.map Prod.fst (PrefixDecoder.decode
      (generate_decoder ⟨65535, [[], [0], [], [], [], [], [],
        List.range' 1 64]⟩)
      (BitReader.new [128, 0, 0, 0, 0, 0, 0, 0])) = some 63 := by decide

/-! ## The adaptive Huffman tree -/

/-- **C2.** Counterexample to the claimed tree invariants: the adaptive
decoder does not validate the raw symbol it reads after an NYT escape, so a
malformed stream corrupts the tree.  With `num_symbols = 6`
(`symbol_bits = 3`) decoding the byte `0x5E` from a fresh tree: the first
decode reads raw symbol 2 and leaves a valid tree, but the second decode
follows the NYT escape and reads raw symbol `0b111 = 7 ≥ num_symbols`;
`add_new_symbol(7)` then writes the parent pointer of `nodes[8]` — a tree
node, not a symbol node — and creates a leaf whose `child` field (8) points
into the tree region.  The decode completes, returning the out-of-range
symbol 7, and the resulting tree violates the claimed invariants (a fake
internal node with even weight, and the root's left child's parent pointer
no longer points back at the root). -/
theorem dynamic_decode_corrupts_tree :
    Option.bind (DynamicHuffman.new 6) (fun d0 =>
      Option.bind (d0.decode (BitReader.new [0x5E]) 100) (fun p1 =>
        Option.bind (p1.2.1.decode p1.2.2 100) (fun p2 =>
          some (p1.1, p2.1, treeInvariantsHold p1.2.1,
            treeInvariantsHold p2.2.1))))
      = some (2, 7, true, false) := by decide


end Comprs
